import Mathlib

/-!
# goxkcd: the acquisition pipeline of `cmd/goxkcd/main.go`

A shallow embedding of `writeMissingIDs`, `fetchComicsBatch` and `run`, and the
properties of the pipeline they form.

* Go's `int` is the 64-bit two's complement integer; `i++` is modelled by
  `wrapInt (i + 1)`.
* The collaborators that `main.go` only uses through an interface or an imported
  package (`Repo[T]`, `xkcdcom.XKCDClient`, `comix.FromComixInfo`) are parameters.
* Each of the three functions is embedded twice from the same building blocks:
  as a sequential function of what its channels and its context deliver, and as
  one party of the labelled transition system `step` of the whole of `run`.
-/

namespace Goxkcd

/-! ## Data -/

/-- Go's `error` values, identified by their message. -/
abbrev GoError := String

/-- The value of `ctx.Err()` once the context of `signal.NotifyContext` is cancelled. -/
def ctxErr : GoError := "context canceled"

/-- Modelled from the spec: the type `comix.Comix` (package `internal/pkg/comix`,
not among the sources) is a record with an integer identifier, read by
`writeMissingIDs` as `comix.ID`, and fetched payload fields, kept here as one string. -/
structure Comix where
  ID : Int
  payload : String
deriving DecidableEq, Repr

/-- The largest value of Go's `int` (64 bit). -/
def maxInt : Int := 9223372036854775807

/-- The result of an `int` operation whose mathematical value is `x`: two's
complement wrap-around into `[-2^63, 2^63)`. -/
def wrapInt (x : Int) : Int :=
  (x + 9223372036854775808) % 18446744073709551616 - 9223372036854775808

/-! ## `writeMissingIDs` -/

/-- What `writeMissingIDs` does to the channel `missing`. -/
inductive ChanOp where
  | send (i : Int)
  | close
deriving DecidableEq, Repr

/-- Lines 33-36: the keys of the map `exist`, all of them mapped to `true`. -/
def existKeys (allComics : List Comix) : List Int :=
  allComics.map (fun c => c.ID)

/-- The four ways one pass through the loop of lines 38-47 can go. -/
inductive Iter where
  | exit
  | interrupted
  | skip
  | send
deriving DecidableEq, Repr

/-- One pass through `for i := 1; i <= limit; i++ { select { ... } }` up to the
point where it blocks or leaves: the loop condition, then the `select`, whose
`default` branch runs only when `ctx.Done()` is not ready, then `exist[i]`. -/
def iteration (exist : List Int) (limit : Int) (cancelled : Bool) (i : Int) : Iter :=
  if i ≤ limit then
    if cancelled then Iter.interrupted
    else if i ∈ exist then Iter.skip
    else Iter.send
  else Iter.exit

/-- The loop of lines 38-48 run against receivers that take every identifier
offered. `done k` tells whether `ctx.Done()` is closed when pass number `k`
reaches its `select`. The result is the list of identifiers sent and the
returned error, or `none` when `fuel` passes were not enough to return. -/
def writeLoop (exist : List Int) (limit : Int) (done : Nat → Bool) :
    Nat → Nat → Int → Option (List Int × Option GoError)
  | 0, _, _ => none
  | fuel + 1, k, i =>
    match iteration exist limit (done k) i with
    | Iter.exit => some ([], none)
    | Iter.interrupted => some ([], some ctxErr)
    | Iter.skip => writeLoop exist limit done fuel (k + 1) (wrapInt (i + 1))
    | Iter.send =>
      (writeLoop exist limit done fuel (k + 1) (wrapInt (i + 1))).map
        (fun r => (i :: r.1, r.2))

/-- The function `writeMissingIDs` (lines 22-49) run against receivers that take
every identifier offered: the operations performed on `missing`, ending with
the deferred `close`, and the returned error. `getAll` is what `repo.GetAll()`
returns. -/
def writeMissingIDs (getAll : Except GoError (List Comix)) (limit : Int)
    (done : Nat → Bool) (fuel : Nat) : Option (List ChanOp × Option GoError) :=
  match getAll with
  | Except.error e => some ([ChanOp.close], some e)
  | Except.ok allComics =>
    (writeLoop (existKeys allComics) limit done fuel 0 1).map
      (fun r => (r.1.map ChanOp.send ++ [ChanOp.close], r.2))

/-! ## `fetchComicsBatch` -/

/-- The closure `sendBatch` (lines 59-64): the batch put on the channel
`batches`, if any, and the value of the variable `batch` afterwards. -/
def sendBatch (batch : List Comix) : Option (List Comix) × List Comix :=
  if batch.length > 0 then (some batch, []) else (none, batch)

/-- Lines 74-81: what a worker does with the answer `res` of
`client.GetByID(ctx, id)`. -/
def received {Info : Type} (fromComixInfo : Info → Comix) (batchSize : Int)
    (batch : List Comix) (res : Except GoError Info) :
    Option (List Comix) × List Comix :=
  let batch1 :=
    match res with
    | Except.ok info => batch ++ [fromComixInfo info]
    | Except.error _ => batch
  if (batch1.length : Int) = batchSize then sendBatch batch1 else (none, batch1)

/-- What one `select` of a worker (lines 68-84) yields: an identifier together
with the answer `client.GetByID` then gives for it, the closed identifier
stream, or `ctx.Done()`. -/
inductive Recv (Info : Type) where
  | id (id : Int) (res : Except GoError Info)
  | closed
  | done

/-- The loop of lines 67-85 with the deferred `sendBatch` of line 65: the
batches put on `batches`, in order, and whether the worker has returned (it
has not when the events end before a `closed` or `done`). -/
def workerLoop {Info : Type} (fromComixInfo : Info → Comix) (batchSize : Int) :
    List (Recv Info) → List Comix → List (List Comix) × Bool
  | [], _ => ([], false)
  | Recv.id _ res :: rest, batch =>
    let r := received fromComixInfo batchSize batch res
    let t := workerLoop fromComixInfo batchSize rest r.2
    (r.1.toList ++ t.1, t.2)
  | Recv.closed :: _, batch => ((sendBatch batch).1.toList, true)
  | Recv.done :: _, batch => ((sendBatch batch).1.toList, true)

/-- The function `fetchComicsBatch` (lines 51-86) as a function of what its
`select` yields: it starts from the empty batch of line 58. -/
def fetchComicsBatch {Info : Type} (fromComixInfo : Info → Comix) (batchSize : Int)
    (events : List (Recv Info)) : List (List Comix) × Bool :=
  workerLoop fromComixInfo batchSize events []

/-- The answers of the successful fetches among the identifiers received before
the worker returns, in the order of receipt. -/
def successes {Info : Type} : List (Recv Info) → List Info
  | [] => []
  | Recv.id _ (Except.ok info) :: rest => info :: successes rest
  | Recv.id _ (Except.error _) :: rest => successes rest
  | Recv.closed :: _ => []
  | Recv.done :: _ => []

/-- Whether the events make the worker return. -/
def terminates {Info : Type} : List (Recv Info) → Bool
  | [] => false
  | Recv.id _ _ :: rest => terminates rest
  | Recv.closed :: _ => true
  | Recv.done :: _ => true

/-! ## The sink loop of `run` -/

/-- The outcome of the loop of lines 116-121. -/
structure SinkResult (σ : Type) where
  calls : List (List Comix)
  store : σ
  panicked : Option GoError

/-- The loop `for batch := range batches` (lines 116-121) over the batches that
arrive: the arguments of the calls of `repo.BulkInsert` in order, the state of
the store at the end, and the error the loop panicked with, if it did.
`bulkInsert store batch` is the state `repo.BulkInsert(batch)` leaves the store
in and the error it returns. -/
def sinkLoop {σ : Type} (bulkInsert : σ → List Comix → σ × Option GoError) :
    σ → List (List Comix) → SinkResult σ
  | store, [] => { calls := [], store := store, panicked := none }
  | store, batch :: rest =>
    match bulkInsert store batch with
    | (store1, some e) => { calls := [batch], store := store1, panicked := some e }
    | (store1, none) =>
      let r := sinkLoop bulkInsert store1 rest
      { r with calls := batch :: r.calls }

/-- The state of the store after the batches have been inserted one after the
other, whatever the calls return. -/
def storeAfter {σ : Type} (bulkInsert : σ → List Comix → σ × Option GoError) :
    σ → List (List Comix) → σ
  | store, [] => store
  | store, batch :: rest => storeAfter bulkInsert (bulkInsert store batch).1 rest

/-! ## `run`: the pipeline as a transition system -/

/-- What `run` works with: the configuration `cfg` and the collaborators it
reaches through `Repo[comix.Comix]`, `xkcdcom.XKCDClient` and package `comix`.
`getByID id` is the answer of `client.GetByID(ctx, id)` under a context that is
not cancelled; `bulkInsert store batch` is the state `repo.BulkInsert(batch)`
leaves the store in and the error it returns. -/
structure Setup (Info σ : Type) where
  lastComixNum : Except GoError Int
  getByID : Int → Except GoError Info
  fromComixInfo : Info → Comix
  getAll : σ → Except GoError (List Comix)
  bulkInsert : σ → List Comix → σ × Option GoError
  numberOfWorkers : Int
  batchSize : Int

/-- The item a fetch of `id` adds to a batch, if the fetch succeeds. -/
def Setup.item {Info σ : Type} (cfg : Setup Info σ) (id : Int) : Option Comix :=
  match cfg.getByID id with
  | Except.ok info => some (cfg.fromComixInfo info)
  | Except.error _ => none

/-- The panic of `wg.Add` with a negative argument. -/
def negativeCounter : GoError := "sync: negative WaitGroup counter"

/-- Where the goroutine of `writeMissingIDs` stands: before `repo.GetAll()`, at
the loop condition with counter `i`, blocked in `missing <- i`, or returned
(the deferred `close(missing)` done). -/
inductive Producer where
  | start
  | loop (exist : List Int) (i : Int)
  | sending (exist : List Int) (i : Int)
  | returned (err : Option GoError)
deriving DecidableEq, Repr

/-- Where a goroutine of `fetchComicsBatch` stands: at its `select`, inside
`client.GetByID(ctx, id)`, blocked in `batches <- batch` of `sendBatch` (`final`
for the deferred call), or returned with `wg.Done()` called. -/
inductive Worker where
  | selecting (batch : List Comix)
  | fetching (batch : List Comix) (id : Int)
  | flushing (batch : List Comix) (final : Bool)
  | exited
deriving DecidableEq, Repr

/-- Where `run` itself stands: in the loop over `batches`, returned, or
panicked. The process ends with the last two. -/
inductive Main where
  | ranging
  | returned
  | panicked (e : GoError)
deriving DecidableEq, Repr

/-- The state of the pipeline. The last three fields record history: the
identifiers workers have received, in order; how many of them were received
when the context was already cancelled; the arguments of the calls of
`repo.BulkInsert`, in order. -/
structure State (σ : Type) where
  cancelled : Bool
  limit : Int
  producer : Producer
  workers : List Worker
  batchesClosed : Bool
  main : Main
  store : σ
  handed : List Int
  lateTakes : Nat
  calls : List (List Comix)

/-- The steps of the pipeline. `fetched w aborted`: the fetch of worker `w`
returns, with an error caused by the cancelled context when `aborted`. -/
inductive Label where
  | cancel
  | producer
  | handoff (w : Nat)
  | closedRecv (w : Nat)
  | doneRecv (w : Nat)
  | fetched (w : Nat) (aborted : Bool)
  | deliver (w : Nat)
  | closeBatches
  | rangeEnd
deriving DecidableEq, Repr

/-- A worker returns (lines 71 and 83): the deferred `sendBatch` runs. -/
def leave (batch : List Comix) : Worker :=
  match (sendBatch batch).1 with
  | some b => Worker.flushing b true
  | none => Worker.exited

/-- A worker after `client.GetByID` has answered `res` (lines 74-81). -/
def afterFetch {Info σ : Type} (cfg : Setup Info σ) (batch : List Comix)
    (res : Except GoError Info) : Worker :=
  match received cfg.fromComixInfo cfg.batchSize batch res with
  | (some b, _) => Worker.flushing b false
  | (none, batch1) => Worker.selecting batch1

/-- One step of the goroutine of `writeMissingIDs` that needs no partner. -/
def producerStep {Info σ : Type} (cfg : Setup Info σ) (s : State σ) : Option (State σ) :=
  match s.producer with
  | Producer.start =>
    match cfg.getAll s.store with
    | Except.error e => some { s with producer := Producer.returned (some e) }
    | Except.ok allComics => some { s with producer := Producer.loop (existKeys allComics) 1 }
  | Producer.loop exist i =>
    match iteration exist s.limit s.cancelled i with
    | Iter.exit => some { s with producer := Producer.returned none }
    | Iter.interrupted => some { s with producer := Producer.returned (some ctxErr) }
    | Iter.skip => some { s with producer := Producer.loop exist (wrapInt (i + 1)) }
    | Iter.send => some { s with producer := Producer.sending exist i }
  | Producer.sending _ _ => none
  | Producer.returned _ => none

/-- Whether every worker has called `wg.Done()`. -/
def allExited (ws : List Worker) : Bool :=
  ws.all (fun w => decide (w = Worker.exited))

/-- The step `l` from state `s`, if it can be taken.

* `cancel`: the interrupt arrives, `ctx.Done()` is closed.
* `producer`: `repo.GetAll()` with the map built from it, or one pass of the
  loop of `writeMissingIDs` up to its send.
* `handoff w`: the `select` of worker `w` takes the case `<-ids` while
  `writeMissingIDs` is in `missing <- i`; a `select` chooses among its ready
  cases, so this is possible whether or not `ctx.Done()` is closed.
* `closedRecv w`, `doneRecv w`: the `select` of worker `w` finds `ids` closed,
  or takes `<-ctx.Done()`; the worker returns through its deferred `sendBatch`.
* `fetched w aborted`: `client.GetByID` returns to worker `w`.
* `deliver w`: the loop of `run` receives the batch worker `w` is sending and
  calls `repo.BulkInsert` with it; an error makes `run` panic.
* `closeBatches`: `wg.Wait()` returns and `batches` is closed.
* `rangeEnd`: the loop of `run` finds `batches` closed and `run` returns. -/
def step {Info σ : Type} (cfg : Setup Info σ) (l : Label) (s : State σ) :
    Option (State σ) :=
  match s.main with
  | Main.returned => none
  | Main.panicked _ => none
  | Main.ranging =>
    match l with
    | Label.cancel => if s.cancelled then none else some { s with cancelled := true }
    | Label.producer => producerStep cfg s
    | Label.handoff w =>
      match s.producer, s.workers[w]? with
      | Producer.sending exist i, some (Worker.selecting batch) =>
        some { s with
          producer := Producer.loop exist (wrapInt (i + 1))
          workers := s.workers.set w (Worker.fetching batch i)
          handed := s.handed ++ [i]
          lateTakes := s.lateTakes + (if s.cancelled then 1 else 0) }
      | _, _ => none
    | Label.closedRecv w =>
      match s.producer, s.workers[w]? with
      | Producer.returned _, some (Worker.selecting batch) =>
        some { s with workers := s.workers.set w (leave batch) }
      | _, _ => none
    | Label.doneRecv w =>
      match s.cancelled, s.workers[w]? with
      | true, some (Worker.selecting batch) =>
        some { s with workers := s.workers.set w (leave batch) }
      | _, _ => none
    | Label.fetched w aborted =>
      match s.workers[w]? with
      | some (Worker.fetching batch id) =>
        if aborted && !s.cancelled then none
        else
          let res := if aborted then Except.error ctxErr else cfg.getByID id
          some { s with workers := s.workers.set w (afterFetch cfg batch res) }
      | _ => none
    | Label.deliver w =>
      match s.workers[w]? with
      | some (Worker.flushing batch final) =>
        let r := cfg.bulkInsert s.store batch
        some { s with
          workers := s.workers.set w (if final then Worker.exited else Worker.selecting [])
          store := r.1
          calls := s.calls ++ [batch]
          main := match r.2 with
            | none => Main.ranging
            | some e => Main.panicked e }
      | _ => none
    | Label.closeBatches =>
      if !s.batchesClosed && allExited s.workers then some { s with batchesClosed := true }
      else none
    | Label.rangeEnd =>
      if s.batchesClosed then some { s with main := Main.returned } else none

/-- The state in which `run` enters its loop over `batches` (lines 89-115), with
the three kinds of goroutine started, or the panic it ends with before that. -/
def init {Info σ : Type} (cfg : Setup Info σ) (store : σ) : State σ :=
  match cfg.lastComixNum with
  | Except.error e =>
    { cancelled := false, limit := 0, producer := Producer.start, workers := [],
      batchesClosed := false, main := Main.panicked e, store := store,
      handed := [], lateTakes := 0, calls := [] }
  | Except.ok limit =>
    { cancelled := false, limit := limit, producer := Producer.start,
      workers := List.replicate cfg.numberOfWorkers.toNat (Worker.selecting []),
      batchesClosed := false,
      main := if cfg.numberOfWorkers < 0 then Main.panicked negativeCounter else Main.ranging,
      store := store, handed := [], lateTakes := 0, calls := [] }

/-- The state after the steps `ls`, if they can be taken in that order. -/
def exec {Info σ : Type} (cfg : Setup Info σ) : List Label → State σ → Option (State σ)
  | [], s => some s
  | l :: ls, s => (step cfg l s).bind (exec cfg ls)

/-- The states `run` can be in when started on the store `store`. -/
inductive Reachable {Info σ : Type} (cfg : Setup Info σ) (store : σ) : State σ → Prop where
  | start : Reachable cfg store (init cfg store)
  | next {s t : State σ} (l : Label) : Reachable cfg store s → step cfg l s = some t →
      Reachable cfg store t

/-- The steps of `step`, one constructor for each way a step can go. -/
inductive Step {Info σ : Type} (cfg : Setup Info σ) : State σ → State σ → Prop where
  | cancel (s : State σ) : s.main = Main.ranging → s.cancelled = false →
      Step cfg s { s with cancelled := true }
  | getAllError (s : State σ) (e : GoError) : s.main = Main.ranging →
      s.producer = Producer.start → cfg.getAll s.store = Except.error e →
      Step cfg s { s with producer := Producer.returned (some e) }
  | getAllOk (s : State σ) (allComics : List Comix) : s.main = Main.ranging →
      s.producer = Producer.start → cfg.getAll s.store = Except.ok allComics →
      Step cfg s { s with producer := Producer.loop (existKeys allComics) 1 }
  | loopExit (s : State σ) (exist : List Int) (i : Int) : s.main = Main.ranging →
      s.producer = Producer.loop exist i →
      iteration exist s.limit s.cancelled i = Iter.exit →
      Step cfg s { s with producer := Producer.returned none }
  | loopInterrupted (s : State σ) (exist : List Int) (i : Int) : s.main = Main.ranging →
      s.producer = Producer.loop exist i →
      iteration exist s.limit s.cancelled i = Iter.interrupted →
      Step cfg s { s with producer := Producer.returned (some ctxErr) }
  | loopSkip (s : State σ) (exist : List Int) (i : Int) : s.main = Main.ranging →
      s.producer = Producer.loop exist i →
      iteration exist s.limit s.cancelled i = Iter.skip →
      Step cfg s { s with producer := Producer.loop exist (wrapInt (i + 1)) }
  | loopSend (s : State σ) (exist : List Int) (i : Int) : s.main = Main.ranging →
      s.producer = Producer.loop exist i →
      iteration exist s.limit s.cancelled i = Iter.send →
      Step cfg s { s with producer := Producer.sending exist i }
  | handoff (s : State σ) (w : Nat) (exist : List Int) (i : Int) (batch : List Comix) :
      s.main = Main.ranging → s.producer = Producer.sending exist i →
      s.workers[w]? = some (Worker.selecting batch) →
      Step cfg s { s with
        producer := Producer.loop exist (wrapInt (i + 1))
        workers := s.workers.set w (Worker.fetching batch i)
        handed := s.handed ++ [i]
        lateTakes := s.lateTakes + (if s.cancelled then 1 else 0) }
  | closedRecv (s : State σ) (w : Nat) (err : Option GoError) (batch : List Comix) :
      s.main = Main.ranging → s.producer = Producer.returned err →
      s.workers[w]? = some (Worker.selecting batch) →
      Step cfg s { s with workers := s.workers.set w (leave batch) }
  | doneRecv (s : State σ) (w : Nat) (batch : List Comix) :
      s.main = Main.ranging → s.cancelled = true →
      s.workers[w]? = some (Worker.selecting batch) →
      Step cfg s { s with workers := s.workers.set w (leave batch) }
  | fetched (s : State σ) (w : Nat) (aborted : Bool) (batch : List Comix) (id : Int) :
      s.main = Main.ranging → s.workers[w]? = some (Worker.fetching batch id) →
      (aborted = true → s.cancelled = true) →
      Step cfg s { s with
        workers := s.workers.set w
          (afterFetch cfg batch (if aborted then Except.error ctxErr else cfg.getByID id)) }
  | deliver (s : State σ) (w : Nat) (batch : List Comix) (final : Bool) :
      s.main = Main.ranging → s.workers[w]? = some (Worker.flushing batch final) →
      Step cfg s { s with
        workers := s.workers.set w (if final then Worker.exited else Worker.selecting [])
        store := (cfg.bulkInsert s.store batch).1
        calls := s.calls ++ [batch]
        main := match (cfg.bulkInsert s.store batch).2 with
          | none => Main.ranging
          | some e => Main.panicked e }
  | closeBatches (s : State σ) : s.main = Main.ranging → s.batchesClosed = false →
      allExited s.workers = true → Step cfg s { s with batchesClosed := true }
  | rangeEnd (s : State σ) : s.main = Main.ranging → s.batchesClosed = true →
      Step cfg s { s with main := Main.returned }

/-- The identifiers among `i, i + 1, ..., i + n - 1` that are not keys of `exist`,
in increasing order. -/
def gapsFrom (exist : List Int) : Int → Nat → List Int
  | _, 0 => []
  | i, n + 1 => if i ∈ exist then gapsFrom exist (i + 1) n else i :: gapsFrom exist (i + 1) n

/-- How far the Gap Detector has come, for a store that held `existing` when it
was enumerated: the identifiers handed out so far are the gaps below the loop
counter. The counter is only known to stay in `[1, limit + 1]` when
`limit < maxInt`. -/
def ProducerInv {σ : Type} (existing : List Comix) (s : State σ) : Prop :=
  match s.producer with
  | Producer.start => s.handed = []
  | Producer.loop exist i =>
    exist = existKeys existing ∧ i ≤ maxInt ∧
      (s.limit < maxInt →
        1 ≤ i ∧ (i - 1).toNat ≤ s.limit.toNat ∧ s.handed = gapsFrom exist 1 (i - 1).toNat)
  | Producer.sending exist i =>
    exist = existKeys existing ∧ i ≤ maxInt ∧ i ∉ exist ∧ i ≤ s.limit ∧
      (s.limit < maxInt → 1 ≤ i ∧ s.handed = gapsFrom exist 1 (i - 1).toNat)
  | Producer.returned none =>
    s.limit < maxInt ∧ s.handed = gapsFrom (existKeys existing) 1 s.limit.toNat
  | Producer.returned (some _) =>
    s.cancelled = true ∧
      (s.limit < maxInt →
        ∃ n, n ≤ s.limit.toNat ∧ s.handed = gapsFrom (existKeys existing) 1 n)

/-- The items a worker holds or is about to hold: its batch, with the item of
the fetch under way when that fetch is not disturbed. -/
def pending {Info σ : Type} (cfg : Setup Info σ) : Worker → List Comix
  | Worker.selecting batch => batch
  | Worker.fetching batch id => batch ++ (cfg.item id).toList
  | Worker.flushing batch _ => batch
  | Worker.exited => []

/-- A bound on the steps a worker can still take without a new identifier. -/
def workerWeight : Worker → Nat
  | Worker.selecting _ => 2
  | Worker.fetching _ _ => 4
  | Worker.flushing _ true => 1
  | Worker.flushing _ false => 3
  | Worker.exited => 0

/-- A bound on the steps `writeMissingIDs` can still take, counting four for
each value its loop counter may still take. -/
def producerWeight (limit : Int) : Producer → Nat
  | Producer.start => 4 * limit.toNat + 6
  | Producer.loop _ i => 4 * (limit + 1 - i).toNat + 1
  | Producer.sending _ i => 4 * (limit + 1 - i).toNat
  | Producer.returned _ => 0

/-- A bound on the steps the pipeline can still take from `s` (for a limit below
`maxInt`): every step lowers it. -/
def stepsLeft {σ : Type} (s : State σ) : Nat :=
  producerWeight s.limit s.producer + (s.workers.map workerWeight).sum
    + (match s.main with
        | Main.ranging => 1
        | _ => 0)
    + (if s.batchesClosed then 0 else 1) + (if s.cancelled then 0 else 1)

/-- Whether a step is a worker receiving an identifier. -/
def isHandoff : Label → Bool
  | Label.handoff _ => true
  | _ => false

/-- The number of identifiers workers receive in the steps `ls`. -/
def handoffs (ls : List Label) : Nat :=
  (ls.filter isHandoff).length

/-- The number of identifiers workers receive after the cancellation in the
steps `ls`. -/
def lateHandoffs : List Label → Nat
  | [] => 0
  | Label.cancel :: ls => handoffs ls
  | _ :: ls => lateHandoffs ls

/-- Modelled from the spec: the store behind `Repo[comix.Comix]` (package
`internal/pkg/comix/repository/json`, not among the sources) holds a sequence of
items; enumerate-all returns it and bulk-insert writes a batch to it. This one
never fails. -/
def listStore (getByID : Int → Except GoError Comix) (limit : Int)
    (numberOfWorkers batchSize : Int) : Setup Comix (List Comix) :=
  { lastComixNum := Except.ok limit
    getByID := getByID
    fromComixInfo := fun info => info
    getAll := fun store => Except.ok store
    bulkInsert := fun store batch => (store ++ batch, none)
    numberOfWorkers := numberOfWorkers
    batchSize := batchSize }

/-- The errors the calls `repo.BulkInsert(batch)` return when the batches are
inserted one after the other, whatever the calls return. -/
def callErrors {σ : Type} (bulkInsert : σ → List Comix → σ × Option GoError) :
    σ → List (List Comix) → List (Option GoError)
  | _, [] => []
  | store, batch :: rest =>
    (bulkInsert store batch).2 :: callErrors bulkInsert (bulkInsert store batch).1 rest

/-! ## A concrete run -/

/-- A remote source that has every comic but number 5. -/
def fetchAllBut5 (id : Int) : Except GoError Comix :=
  if id = 5 then Except.error "not found" else Except.ok { ID := id, payload := "comic" }

/-- A store holding the comics 1, 2 and 4. -/
def store124 : List Comix :=
  [{ ID := 1, payload := "comic" }, { ID := 2, payload := "comic" },
   { ID := 4, payload := "comic" }]

/-- The scenario of the specification: upper bound 6, the fetch of 5 fails,
two workers, batch size 2. -/
def scenario : Setup Comix (List Comix) := listStore fetchAllBut5 6 2 2

/-- A run of the scenario: worker 0 fetches 3 and 6, worker 1 fetches 5. -/
def scenarioRun : List Label :=
  [Label.producer, Label.producer, Label.producer, Label.producer,
   Label.handoff 0, Label.fetched 0 false,
   Label.producer, Label.producer, Label.handoff 1, Label.fetched 1 false,
   Label.producer, Label.handoff 0, Label.fetched 0 false, Label.deliver 0,
   Label.producer, Label.closedRecv 0, Label.closedRecv 1,
   Label.closeBatches, Label.rangeEnd]

/-- The state the run `scenarioRun` ends in. -/
def scenarioEnd : State (List Comix) :=
  { cancelled := false, limit := 6, producer := Producer.returned none,
    workers := [Worker.exited, Worker.exited], batchesClosed := true,
    main := Main.returned,
    store := [{ ID := 1, payload := "comic" }, { ID := 2, payload := "comic" },
      { ID := 4, payload := "comic" }, { ID := 3, payload := "comic" },
      { ID := 6, payload := "comic" }],
    handed := [3, 5, 6], lateTakes := 0,
    calls := [[{ ID := 3, payload := "comic" }, { ID := 6, payload := "comic" }]] }

/-- One worker, upper bound 1, batch size 1, an empty store, every fetch succeeds. -/
def oneWorker : Setup Comix (List Comix) :=
  listStore (fun id => Except.ok { ID := id, payload := "comic" }) 1 1 1

/-- The state of `oneWorker` in which `writeMissingIDs` is blocked in `missing <- 1`. -/
def offering (cancelled : Bool) (worker : Worker) : State (List Comix) :=
  { cancelled := cancelled, limit := 1, producer := Producer.sending [] 1,
    workers := [worker], batchesClosed := false, main := Main.ranging,
    store := [], handed := [], lateTakes := 0, calls := [] }

/-- A setup like `oneWorker` with upper bound 3 and batch size 2 whose store
cannot be enumerated. -/
def unreadable : Setup Comix (List Comix) :=
  { lastComixNum := Except.ok 3
    getByID := fun id => Except.ok { ID := id, payload := "comic" }
    fromComixInfo := fun info => info
    getAll := fun _ => Except.error "unreadable store"
    bulkInsert := fun store batch => (store ++ batch, none)
    numberOfWorkers := 1
    batchSize := 2 }

/-- The state in which `run` returns when started with `unreadable`. -/
def unreadableEnd : State (List Comix) :=
  { cancelled := false, limit := 3,
    producer := Producer.returned (some "unreadable store"),
    workers := [Worker.exited], batchesClosed := true, main := Main.returned,
    store := [], handed := [], lateTakes := 0, calls := [] }

/-- What the `select` of a worker yields when it receives 3, 5, 6 and 7 from
the scenario and then `last`. -/
def fourReceived (last : Recv Comix) : List (Recv Comix) :=
  [Recv.id 3 (fetchAllBut5 3), Recv.id 5 (fetchAllBut5 5), Recv.id 6 (fetchAllBut5 6),
    Recv.id 7 (fetchAllBut5 7), last]

/-- The state of `oneWorker` after its worker has received 1 from a cancelled
pipeline. -/
def tookLate : State (List Comix) :=
  { cancelled := true, limit := 1, producer := Producer.loop [] 2,
    workers := [Worker.fetching [] 1], batchesClosed := false, main := Main.ranging,
    store := [], handed := [1], lateTakes := 1, calls := [] }

/-- The store of the scenario after a run in which no fetch failed. -/
def store124356 : List Comix :=
  store124 ++ [{ ID := 3, payload := "comic" }, { ID := 5, payload := "comic" },
    { ID := 6, payload := "comic" }]

/-! ## Theorems: the Gap Detector -/

theorem wrapInt_eq (x : Int) (h1 : -9223372036854775808 ≤ x) (h2 : x ≤ maxInt) :
    wrapInt x = x := by
  unfold wrapInt
  unfold maxInt at h2
  omega

theorem wrapInt_le (x : Int) : wrapInt x ≤ maxInt := by
  unfold wrapInt maxInt
  omega

theorem mem_gapsFrom (exist : List Int) (n : Nat) :
    ∀ i j : Int, j ∈ gapsFrom exist i n ↔ (i ≤ j ∧ j < i + n ∧ j ∉ exist) := by
  induction n with
  | zero =>
    intro i j
    simp only [gapsFrom, List.not_mem_nil, false_iff]
    omega
  | succ n ih =>
    intro i j
    unfold gapsFrom
    by_cases hi : i ∈ exist
    · rw [if_pos hi, ih]
      constructor
      · rintro ⟨h1, h2, h3⟩
        exact ⟨by omega, by push_cast; omega, h3⟩
      · rintro ⟨h1, h2, h3⟩
        have hne : j ≠ i := fun h => h3 (h ▸ hi)
        exact ⟨by omega, by push_cast at h2; omega, h3⟩
    · rw [if_neg hi, List.mem_cons, ih]
      constructor
      · rintro (h | ⟨h1, h2, h3⟩)
        · subst h
          exact ⟨le_refl _, by push_cast; omega, hi⟩
        · exact ⟨by omega, by push_cast; omega, h3⟩
      · rintro ⟨h1, h2, h3⟩
        by_cases hji : j = i
        · exact Or.inl hji
        · exact Or.inr ⟨by omega, by push_cast at h2; omega, h3⟩

theorem sorted_gapsFrom (exist : List Int) (n : Nat) :
    ∀ i : Int, (gapsFrom exist i n).Sorted (· < ·) := by
  induction n with
  | zero => intro i; simp [gapsFrom]
  | succ n ih =>
    intro i
    unfold gapsFrom
    by_cases hi : i ∈ exist
    · rw [if_pos hi]; exact ih _
    · rw [if_neg hi, List.sorted_cons]
      refine ⟨fun j hj => ?_, ih _⟩
      have := (mem_gapsFrom exist n (i + 1) j).1 hj
      omega

/-- The loop of `writeMissingIDs`, not cancelled, started at `i` with `n` values
left up to `limit < maxInt`, returns `nil` after sending the gaps. -/
theorem writeLoop_gaps (exist : List Int) (limit : Int) (done : Nat → Bool)
    (hdone : ∀ k, done k = false) (hlim : limit < maxInt) (n : Nat) :
    ∀ (fuel k : Nat) (i : Int), -9223372036854775808 ≤ i → n = (limit + 1 - i).toNat →
      n < fuel →
      writeLoop exist limit done fuel k i = some (gapsFrom exist i n, none) := by
  induction n with
  | zero =>
    intro fuel k i _ hn hf
    obtain ⟨f, rfl⟩ : ∃ f, fuel = f + 1 := ⟨fuel - 1, by omega⟩
    have hi : ¬ i ≤ limit := by omega
    simp [writeLoop, iteration, hi, gapsFrom]
  | succ n ih =>
    intro fuel k i hi0 hn hf
    obtain ⟨f, rfl⟩ : ∃ f, fuel = f + 1 := ⟨fuel - 1, by omega⟩
    have hi : i ≤ limit := by omega
    have hw : wrapInt (i + 1) = i + 1 := wrapInt_eq _ (by omega) (by omega)
    have hrec := ih f (k + 1) (i + 1) (by omega) (by omega) (by omega)
    unfold writeLoop gapsFrom
    by_cases hex : i ∈ exist
    · simp [iteration, hi, hdone, hex, hw, hrec]
    · simp [iteration, hi, hdone, hex, hw, hrec]

/-! ## Theorems: one fetch worker -/

theorem sendBatch_join (batch : List Comix) :
    (sendBatch batch).1.toList.flatten ++ (sendBatch batch).2 = batch := by
  unfold sendBatch
  cases batch <;> simp

theorem sendBatch_flush (batch : List Comix) :
    (sendBatch batch).1.toList.flatten = batch := by
  unfold sendBatch
  cases batch <;> simp

theorem sendBatch_mem (batch b : List Comix) (h : b ∈ (sendBatch batch).1.toList) :
    b = batch ∧ b ≠ [] := by
  unfold sendBatch at h
  cases batch with
  | nil => simp at h
  | cons x xs => simp at h; subst h; simp

/-- Lines 74-77: the batch after the answer of the fetch has been looked at. -/
theorem received_join {Info : Type} (f : Info → Comix) (batchSize : Int)
    (batch : List Comix) (res : Except GoError Info) :
    (received f batchSize batch res).1.toList.flatten ++ (received f batchSize batch res).2
      = batch ++ (match res with
          | Except.ok info => [f info]
          | Except.error _ => []) := by
  unfold received
  cases res with
  | error e =>
    simp only []
    split
    · simpa using sendBatch_join batch
    · simp
  | ok info =>
    simp only []
    split
    · exact sendBatch_join _
    · simp

theorem workerLoop_join {Info : Type} (f : Info → Comix) (batchSize : Int)
    (events : List (Recv Info)) :
    ∀ batch : List Comix, terminates events = true →
      (workerLoop f batchSize events batch).1.flatten = batch ++ (successes events).map f ∧
      (workerLoop f batchSize events batch).2 = true := by
  induction events with
  | nil => intro batch h; simp [terminates] at h
  | cons ev rest ih =>
    intro batch h
    cases ev with
    | closed => simp [workerLoop, successes, sendBatch_flush]
    | done => simp [workerLoop, successes, sendBatch_flush]
    | id i res =>
      have hrest : terminates rest = true := by simpa [terminates] using h
      have h1 := ih (received f batchSize batch res).2 hrest
      have h2 := received_join f batchSize batch res
      simp only [workerLoop, List.flatten_append, h1.1, h1.2, and_true]
      rw [← List.append_assoc, h2]
      cases res with
      | error e => simp [successes]
      | ok info => simp [successes]

theorem received_mem {Info : Type} (f : Info → Comix) (batchSize : Int)
    (batch : List Comix) (res : Except GoError Info) (b : List Comix)
    (h : b ∈ (received f batchSize batch res).1.toList) :
    b ≠ [] ∧ (b.length : Int) = batchSize := by
  unfold received at h
  simp only [] at h
  split at h
  · rename_i heq
    have := sendBatch_mem _ b h
    rw [this.1]
    exact ⟨this.1 ▸ this.2, heq⟩
  · simp at h

theorem received_length {Info : Type} (f : Info → Comix) (batchSize : Int)
    (batch : List Comix) (res : Except GoError Info)
    (hK : 1 ≤ batchSize) (hb : (batch.length : Int) < batchSize) :
    ((received f batchSize batch res).2.length : Int) < batchSize := by
  unfold received
  simp only []
  split
  · unfold sendBatch
    split
    · simpa using hK
    · rename_i heq hlen
      cases res <;> simp_all
  · rename_i hne
    cases res with
    | error e => simpa using hb
    | ok info =>
      simp only [List.length_append, List.length_singleton, Nat.cast_add, Nat.cast_one] at hne ⊢
      omega

theorem workerLoop_nonempty {Info : Type} (f : Info → Comix) (batchSize : Int)
    (events : List (Recv Info)) :
    ∀ batch : List Comix, ∀ b ∈ (workerLoop f batchSize events batch).1, b ≠ [] := by
  induction events with
  | nil => intro batch b h; simp [workerLoop] at h
  | cons ev rest ih =>
    intro batch b h
    cases ev with
    | closed => exact (sendBatch_mem _ b (by simpa [workerLoop] using h)).2
    | done => exact (sendBatch_mem _ b (by simpa [workerLoop] using h)).2
    | id i res =>
      simp only [workerLoop, List.mem_append] at h
      rcases h with h | h
      · exact (received_mem f batchSize batch res b h).1
      · exact ih _ b h

theorem workerLoop_capped {Info : Type} (f : Info → Comix) (batchSize : Int)
    (hK : 1 ≤ batchSize) (events : List (Recv Info)) :
    ∀ batch : List Comix, (batch.length : Int) < batchSize →
      ∀ b ∈ (workerLoop f batchSize events batch).1, (b.length : Int) ≤ batchSize := by
  induction events with
  | nil => intro batch _ b h; simp [workerLoop] at h
  | cons ev rest ih =>
    intro batch hb b h
    cases ev with
    | closed =>
      have := (sendBatch_mem _ b (by simpa [workerLoop] using h)).1
      rw [this]; omega
    | done =>
      have := (sendBatch_mem _ b (by simpa [workerLoop] using h)).1
      rw [this]; omega
    | id i res =>
      simp only [workerLoop, List.mem_append] at h
      rcases h with h | h
      · exact le_of_eq (received_mem f batchSize batch res b h).2
      · exact ih _ (received_length f batchSize batch res hK hb) b h

theorem workerLoop_full {Info : Type} (f : Info → Comix) (batchSize : Int)
    (events : List (Recv Info)) :
    ∀ batch : List Comix,
      ∀ b ∈ (workerLoop f batchSize events batch).1.dropLast, (b.length : Int) = batchSize := by
  induction events with
  | nil => intro batch b h; simp [workerLoop] at h
  | cons ev rest ih =>
    intro batch b h
    cases ev with
    | closed =>
      exfalso
      simp only [workerLoop, sendBatch] at h
      split at h <;> simp at h
    | done =>
      exfalso
      simp only [workerLoop, sendBatch] at h
      split at h <;> simp at h
    | id i res =>
      simp only [workerLoop] at h
      rw [List.dropLast_append] at h
      split at h
      · exfalso
        cases hr : (received f batchSize batch res).1 <;> simp [hr] at h
      · rcases List.mem_append.1 h with h | h
        · exact (received_mem f batchSize batch res b h).2
        · exact ih _ b h

/-- The number of items in the batches: `n` batches, all but the last of size
`K`, the last one of a size between `1` and `K`, hold `M` items only if `n` is
the ceiling of `M / K`. -/
theorem ceil_of_chunks (out : List (List Comix)) (K M : Nat) (hK : 1 ≤ K)
    (hsum : out.flatten.length = M)
    (hfull : ∀ b ∈ out.dropLast, b.length = K)
    (hcap : ∀ b ∈ out, b ≠ [] ∧ b.length ≤ K) :
    out.length = (M + K - 1) / K ∧
      ∀ h : out ≠ [], (out.getLast h).length = M - K * ((M + K - 1) / K - 1) := by
  by_cases hne : out = []
  · subst hne
    simp at hsum
    subst hsum
    refine ⟨?_, fun h => absurd rfl h⟩
    simp only [List.length_nil, Nat.zero_add]
    exact (Nat.div_eq_of_lt (by omega)).symm
  · have hdec := List.dropLast_append_getLast hne
    have hlast := hcap _ (List.getLast_mem hne)
    have hlen1 : 1 ≤ (out.getLast hne).length := by
      rcases hl : out.getLast hne with _ | ⟨x, xs⟩
      · exact absurd hl hlast.1
      · simp
    have hsum2 : M = K * (out.length - 1) + (out.getLast hne).length := by
      rw [← hsum]
      conv_lhs => rw [← hdec]
      rw [List.flatten_append, List.length_append, List.length_flatten]
      have : (out.dropLast.map List.length).sum = out.dropLast.length * K := by
        rw [List.sum_eq_card_nsmul _ K]
        · simp
        · intro x hx
          obtain ⟨b, hb, rfl⟩ := List.mem_map.1 hx
          exact hfull b hb
      rw [this]
      simp [Nat.mul_comm]
    have hpos : 1 ≤ out.length := by
      cases out with
      | nil => exact absurd rfl hne
      | cons _ _ => simp
    have hdiv : (M + K - 1) / K = out.length := by
      apply Nat.div_eq_of_lt_le
      · have : out.length * K = K * (out.length - 1) + K := by
          obtain ⟨n, hn⟩ : ∃ n, out.length = n + 1 := ⟨out.length - 1, by omega⟩
          rw [hn]; simp; ring
        rw [this, hsum2]; omega
      · have : (out.length + 1) * K = K * (out.length - 1) + K + K := by
          obtain ⟨n, hn⟩ : ∃ n, out.length = n + 1 := ⟨out.length - 1, by omega⟩
          rw [hn]; simp; ring
        rw [this, hsum2]; omega
    refine ⟨hdiv.symm, fun h => ?_⟩
    rw [hdiv, hsum2]
    simp

/-! ## Theorems: the sink loop -/

theorem sinkLoop_ok {σ : Type} (bulkInsert : σ → List Comix → σ × Option GoError)
    (arrivals : List (List Comix)) :
    ∀ store : σ, (sinkLoop bulkInsert store arrivals).panicked = none →
      (sinkLoop bulkInsert store arrivals).calls = arrivals ∧
      (sinkLoop bulkInsert store arrivals).store = storeAfter bulkInsert store arrivals ∧
      ∀ x ∈ callErrors bulkInsert store arrivals, x = none := by
  induction arrivals with
  | nil => intro store _; simp [sinkLoop, storeAfter, callErrors]
  | cons b rest ih =>
    intro store h
    unfold sinkLoop at h ⊢
    rcases hb : bulkInsert store b with ⟨store1, _ | e⟩
    · rw [hb] at h
      simp only [] at h ⊢
      have := ih store1 h
      simp [storeAfter, callErrors, hb, this.1, this.2.1]
      exact this.2.2
    · rw [hb] at h
      simp at h

theorem sinkLoop_panicked {σ : Type} (bulkInsert : σ → List Comix → σ × Option GoError)
    (arrivals : List (List Comix)) (e : GoError) :
    ∀ store : σ, (sinkLoop bulkInsert store arrivals).panicked = some e →
      ∃ pre b post, arrivals = pre ++ b :: post ∧
        (∀ x ∈ callErrors bulkInsert store pre, x = none) ∧
        (bulkInsert (storeAfter bulkInsert store pre) b).2 = some e ∧
        (sinkLoop bulkInsert store arrivals).calls = pre ++ [b] ∧
        (sinkLoop bulkInsert store arrivals).store
          = (bulkInsert (storeAfter bulkInsert store pre) b).1 := by
  induction arrivals with
  | nil => intro store h; simp [sinkLoop] at h
  | cons b rest ih =>
    intro store h
    unfold sinkLoop at h ⊢
    rcases hb : bulkInsert store b with ⟨store1, _ | e1⟩
    · rw [hb] at h
      simp only [] at h ⊢
      obtain ⟨pre, b2, post, h1, h2, h3, h4, h5⟩ := ih store1 h
      refine ⟨b :: pre, b2, post, by simp [h1], ?_, ?_, ?_, ?_⟩
      · intro x hx
        simp only [callErrors, hb, List.mem_cons] at hx
        rcases hx with hx | hx
        · exact hx
        · exact h2 x hx
      · simpa [storeAfter, hb] using h3
      · simp [h4]
      · simpa [storeAfter, hb] using h5
    · rw [hb] at h
      simp only [Option.some.injEq] at h
      subst h
      exact ⟨[], b, rest, rfl, by simp [callErrors], by simp [storeAfter, hb],
        by simp, by simp [storeAfter, hb]⟩

theorem sinkLoop_of_first_failure {σ : Type}
    (bulkInsert : σ → List Comix → σ × Option GoError) (e : GoError)
    (pre : List (List Comix)) (b : List Comix) (post : List (List Comix)) :
    ∀ store : σ, (∀ x ∈ callErrors bulkInsert store pre, x = none) →
      (bulkInsert (storeAfter bulkInsert store pre) b).2 = some e →
      (sinkLoop bulkInsert store (pre ++ b :: post)).panicked = some e := by
  induction pre with
  | nil =>
    intro store _ h
    simp only [storeAfter] at h
    rcases hb : bulkInsert store b with ⟨store1, r⟩
    rw [hb] at h
    simp only at h
    subst h
    simp [sinkLoop, hb]
  | cons a pre ih =>
    intro store h1 h2
    have ha : (bulkInsert store a).2 = none := h1 _ (by simp [callErrors])
    rcases hb : bulkInsert store a with ⟨store1, r⟩
    rw [hb] at ha
    simp only at ha
    subst ha
    have := ih store1 (fun x hx => h1 x (by simp [callErrors, hb, hx]))
      (by simpa [storeAfter, hb] using h2)
    simpa [sinkLoop, hb] using this

/-! ## Theorems: the steps of the pipeline -/

theorem step_sound {Info σ : Type} (cfg : Setup Info σ) (l : Label) (s t : State σ)
    (h : step cfg l s = some t) : Step cfg s t := by
  unfold step at h
  split at h
  · exact absurd h (by simp)
  · exact absurd h (by simp)
  · rename_i hmain
    cases l with
    | cancel =>
      simp only [] at h
      split at h
      · exact absurd h (by simp)
      · rename_i hc
        cases Option.some.inj h
        exact Step.cancel s hmain (by simpa using hc)
    | producer =>
      simp only [producerStep] at h
      split at h
      · rename_i hp
        split at h
        · rename_i e he
          cases Option.some.inj h
          exact Step.getAllError s e hmain hp he
        · rename_i a ha
          cases Option.some.inj h
          exact Step.getAllOk s a hmain hp ha
      · rename_i ex i hp
        split at h
        · rename_i hi
          cases Option.some.inj h
          exact Step.loopExit s ex i hmain hp hi
        · rename_i hi
          cases Option.some.inj h
          exact Step.loopInterrupted s ex i hmain hp hi
        · rename_i hi
          cases Option.some.inj h
          exact Step.loopSkip s ex i hmain hp hi
        · rename_i hi
          cases Option.some.inj h
          exact Step.loopSend s ex i hmain hp hi
      · exact absurd h (by simp)
      · exact absurd h (by simp)
    | handoff w =>
      simp only [] at h
      split at h
      · rename_i ex i b hp hw
        cases Option.some.inj h
        exact Step.handoff s w ex i b hmain hp hw
      · exact absurd h (by simp)
    | closedRecv w =>
      simp only [] at h
      split at h
      · rename_i e b hp hw
        cases Option.some.inj h
        exact Step.closedRecv s w e b hmain hp hw
      · exact absurd h (by simp)
    | doneRecv w =>
      simp only [] at h
      split at h
      · rename_i b hc hw
        cases Option.some.inj h
        exact Step.doneRecv s w b hmain hc hw
      · exact absurd h (by simp)
    | fetched w aborted =>
      simp only [] at h
      split at h
      · rename_i b id hw
        split at h
        · exact absurd h (by simp)
        · rename_i hab
          cases Option.some.inj h
          refine Step.fetched s w aborted b id hmain hw ?_
          intro ha
          simpa [ha] using hab
      · exact absurd h (by simp)
    | deliver w =>
      simp only [] at h
      split at h
      · rename_i b final hw
        cases Option.some.inj h
        exact Step.deliver s w b final hmain hw
      · exact absurd h (by simp)
    | closeBatches =>
      simp only [] at h
      split at h
      · rename_i hc
        cases Option.some.inj h
        simp only [Bool.and_eq_true, Bool.not_eq_true'] at hc
        exact Step.closeBatches s hmain hc.1 hc.2
      · exact absurd h (by simp)
    | rangeEnd =>
      simp only [] at h
      split at h
      · rename_i hc
        cases Option.some.inj h
        exact Step.rangeEnd s hmain hc
      · exact absurd h (by simp)

/-- The invariant principle: what holds at the start and is kept by every step
holds in every reachable state. -/
theorem reachable_induction {Info σ : Type} (cfg : Setup Info σ) (store : σ)
    (P : State σ → Prop) (h0 : P (init cfg store))
    (hstep : ∀ s t, Reachable cfg store s → P s → Step cfg s t → P t) :
    ∀ s, Reachable cfg store s → P s := by
  intro s hs
  induction hs with
  | start => exact h0
  | next l hr hst ih => exact hstep _ _ hr ih (step_sound cfg l _ _ hst)

theorem reachable_of_exec {Info σ : Type} (cfg : Setup Info σ) (store : σ)
    (ls : List Label) :
    ∀ s t : State σ, Reachable cfg store s → exec cfg ls s = some t →
      Reachable cfg store t := by
  induction ls with
  | nil =>
    intro s t hs h
    cases Option.some.inj h
    exact hs
  | cons l ls ih =>
    intro s t hs h
    simp only [exec] at h
    cases hl : step cfg l s with
    | none => rw [hl] at h; exact absurd h (by simp)
    | some u =>
      rw [hl] at h
      exact ih u t (Reachable.next l hs hl) h

theorem storeAfter_append {σ : Type} (f : σ → List Comix → σ × Option GoError)
    (cs : List (List Comix)) (b : List Comix) :
    ∀ st : σ, storeAfter f st (cs ++ [b]) = (f (storeAfter f st cs) b).1 := by
  induction cs with
  | nil => intro st; rfl
  | cons c cs ih => intro st; simp [storeAfter, ih]

theorem callErrors_append {σ : Type} (f : σ → List Comix → σ × Option GoError)
    (cs : List (List Comix)) (b : List Comix) :
    ∀ st : σ, callErrors f st (cs ++ [b])
      = callErrors f st cs ++ [(f (storeAfter f st cs) b).2] := by
  induction cs with
  | nil => intro st; rfl
  | cons c cs ih => intro st; simp [storeAfter, callErrors, ih]

theorem forall_mem_set {α : Type} (P : α → Prop) (l : List α) (n : Nat) (b : α)
    (hl : ∀ x ∈ l, P x) (hb : P b) : ∀ x ∈ l.set n b, P x := by
  intro x hx
  rcases List.mem_or_eq_of_mem_set hx with h | h
  · exact hl x h
  · exact h ▸ hb

/-- The store is what the calls of `BulkInsert` made so far have left. -/
theorem store_eq_storeAfter {Info σ : Type} (cfg : Setup Info σ) (store : σ) :
    ∀ s, Reachable cfg store s → s.store = storeAfter cfg.bulkInsert store s.calls := by
  apply reachable_induction
  · unfold init; split <;> rfl
  · intro s t _ ih hst
    cases hst <;> simp only [ih, storeAfter_append]

/-- While no identifier has been handed to a worker, no worker holds an item,
`BulkInsert` has not been called and `run` has not panicked in its loop. -/
theorem idle_of_handed_nil {Info σ : Type} (cfg : Setup Info σ) (store : σ) :
    ∀ s, Reachable cfg store s → s.handed = [] →
      s.calls = [] ∧ (∀ w ∈ s.workers, w = Worker.selecting [] ∨ w = Worker.exited) ∧
      (s.main = (init cfg store).main ∨ s.main = Main.returned) := by
  apply reachable_induction
  · intro _
    refine ⟨?_, ?_, Or.inl rfl⟩
    · unfold init; split <;> rfl
    · unfold init; split
      · simp
      · intro w hw; exact Or.inl (List.eq_of_mem_replicate hw)
  · intro s t _ ih hst
    cases hst with
    | handoff => intro h; simp at h
    | closedRecv w e b _ _ hw =>
      intro h
      obtain ⟨h1, h2, h3⟩ := ih h
      refine ⟨h1, forall_mem_set _ _ _ _ h2 ?_, h3⟩
      rcases h2 _ (List.getElem?_mem hw) with h | h
      · cases h; exact Or.inr rfl
      · cases h
    | doneRecv w b _ _ hw =>
      intro h
      obtain ⟨h1, h2, h3⟩ := ih h
      refine ⟨h1, forall_mem_set _ _ _ _ h2 ?_, h3⟩
      rcases h2 _ (List.getElem?_mem hw) with h | h
      · cases h; exact Or.inr rfl
      · cases h
    | fetched w a b id _ hw =>
      intro h
      obtain ⟨_, h2, _⟩ := ih h
      rcases h2 _ (List.getElem?_mem hw) with h | h <;> cases h
    | deliver w b f _ hw =>
      intro h
      obtain ⟨_, h2, _⟩ := ih h
      rcases h2 _ (List.getElem?_mem hw) with h | h <;> cases h
    | rangeEnd =>
      intro h
      obtain ⟨h1, h2, _⟩ := ih h
      exact ⟨h1, h2, Or.inr rfl⟩
    | _ => exact ih

/-- The channel `batches` is closed only after every worker has returned, and
`run` returns only after `batches` is closed. -/
theorem closed_after_workers {Info σ : Type} (cfg : Setup Info σ) (store : σ) :
    ∀ s, Reachable cfg store s →
      (s.batchesClosed = true → ∀ w ∈ s.workers, w = Worker.exited) ∧
      (s.main = Main.returned → s.batchesClosed = true) := by
  apply reachable_induction
  · constructor
    · unfold init; split <;> simp
    · unfold init; split
      · simp
      · simp only []; split <;> simp
  · intro s t _ ih hst
    cases hst with
    | handoff w ex i b _ _ hw =>
      refine ⟨fun h => ?_, ih.2⟩
      have := ih.1 h _ (List.getElem?_mem hw)
      cases this
    | closedRecv w e b _ _ hw =>
      refine ⟨fun h => ?_, ih.2⟩
      have := ih.1 h _ (List.getElem?_mem hw)
      cases this
    | doneRecv w b _ _ hw =>
      refine ⟨fun h => ?_, ih.2⟩
      have := ih.1 h _ (List.getElem?_mem hw)
      cases this
    | fetched w a b id _ hw =>
      refine ⟨fun h => ?_, ih.2⟩
      have := ih.1 h _ (List.getElem?_mem hw)
      cases this
    | deliver w b f hm hw =>
      constructor
      · intro h
        have := ih.1 h _ (List.getElem?_mem hw)
        cases this
      · intro h
        simp only [] at h
        split at h <;> simp at h
    | closeBatches _ _ hall =>
      refine ⟨fun _ => ?_, fun _ => rfl⟩
      simpa [allExited] using hall
    | rangeEnd _ hc => exact ⟨ih.1, fun _ => hc⟩
    | _ => exact ih

/-- Without cancellation a worker returns only after `missing` is closed. -/
theorem returned_of_worker_left {Info σ : Type} (cfg : Setup Info σ) (store : σ) :
    ∀ s, Reachable cfg store s → s.cancelled = false →
      ∀ w ∈ s.workers, (w = Worker.exited ∨ ∃ b, w = Worker.flushing b true) →
        ∃ e, s.producer = Producer.returned e := by
  apply reachable_induction
  · intro _ w hw h
    exfalso
    unfold init at hw
    split at hw
    · simp at hw
    · have := List.eq_of_mem_replicate hw
      subst this
      rcases h with h | ⟨b, h⟩ <;> cases h
  · intro s t _ ih hst
    cases hst with
    | cancel => intro h; simp at h
    | getAllError e _ _ _ => intro _ _ _ _; exact ⟨_, rfl⟩
    | getAllOk a _ hp _ =>
      intro hc w hw h
      obtain ⟨e, he⟩ := ih hc w hw h
      rw [hp] at he; cases he
    | loopExit => intro _ _ _ _; exact ⟨_, rfl⟩
    | loopInterrupted => intro _ _ _ _; exact ⟨_, rfl⟩
    | loopSkip ex i _ hp _ =>
      intro hc w hw h
      obtain ⟨e, he⟩ := ih hc w hw h
      rw [hp] at he; cases he
    | loopSend ex i _ hp _ =>
      intro hc w hw h
      obtain ⟨e, he⟩ := ih hc w hw h
      rw [hp] at he; cases he
    | handoff w ex i b _ hp hw =>
      intro hc x hx h
      exfalso
      rcases List.mem_or_eq_of_mem_set hx with hx | hx
      · obtain ⟨e, he⟩ := ih hc x hx h
        rw [hp] at he; cases he
      · subst hx
        rcases h with h | ⟨b, h⟩ <;> cases h
    | closedRecv w e b _ hp hw => intro _ _ _ _; exact ⟨e, hp⟩
    | doneRecv w b _ hcan hw =>
      intro hc
      simp only [] at hc
      rw [hcan] at hc; cases hc
    | fetched w a b id _ hw hab =>
      intro hc x hx h
      rcases List.mem_or_eq_of_mem_set hx with hx | hx
      · exact ih hc x hx h
      · exfalso
        subst hx
        unfold afterFetch at h
        split at h
        · rcases h with h | ⟨b, h⟩ <;> cases h
        · rcases h with h | ⟨b, h⟩ <;> cases h
    | deliver w b f _ hw =>
      intro hc x hx h
      rcases List.mem_or_eq_of_mem_set hx with hx | hx
      · exact ih hc x hx h
      · subst hx
        cases f with
        | true => exact ih hc _ (List.getElem?_mem hw) (Or.inr ⟨b, rfl⟩)
        | false => rcases h with h | ⟨b, h⟩ <;> simp at h
    | _ => exact ih

/-- At most one identifier is received after the cancellation, and none is once
the Gap Detector has left the send it was in. -/
theorem late_takes {Info σ : Type} (cfg : Setup Info σ) (store : σ) :
    ∀ s, Reachable cfg store s →
      s.lateTakes ≤ 1 ∧ (s.cancelled = false → s.lateTakes = 0) ∧
      (∀ ex i, s.producer = Producer.sending ex i → s.lateTakes = 0) := by
  apply reachable_induction
  · unfold init; split <;> simp
  · intro s t _ ih hst
    obtain ⟨h1, h2, h3⟩ := ih
    cases hst with
    | cancel => exact ⟨h1, fun h => by simp at h, h3⟩
    | getAllError => exact ⟨h1, h2, fun _ _ h => by simp at h⟩
    | getAllOk => exact ⟨h1, h2, fun _ _ h => by simp at h⟩
    | loopExit => exact ⟨h1, h2, fun _ _ h => by simp at h⟩
    | loopInterrupted => exact ⟨h1, h2, fun _ _ h => by simp at h⟩
    | loopSkip => exact ⟨h1, h2, fun _ _ h => by simp at h⟩
    | loopSend ex i _ hp hi =>
      have hc : s.cancelled = false := by
        unfold iteration at hi
        cases hcan : s.cancelled
        · rfl
        · rw [hcan] at hi
          split at hi <;> simp at hi
      exact ⟨h1, h2, fun _ _ _ => h2 hc⟩
    | handoff w ex i b _ hp hw =>
      have h0 := h3 ex i hp
      refine ⟨?_, ?_, fun _ _ h => by simp at h⟩
      · simp only [h0]; split <;> simp
      · intro hc
        simp only [] at hc
        simp [h0, hc]
    | _ => exact ⟨h1, h2, h3⟩

theorem gapsFrom_succ (exist : List Int) (n : Nat) :
    ∀ i : Int, gapsFrom exist i (n + 1)
      = gapsFrom exist i n ++ (if i + n ∈ exist then [] else [i + n]) := by
  induction n with
  | zero => intro i; simp [gapsFrom]
  | succ n ih =>
    intro i
    have h := ih (i + 1)
    have e : i + 1 + (n : Int) = i + ((n + 1 : Nat) : Int) := by push_cast; ring
    rw [e] at h
    conv_lhs => unfold gapsFrom
    rw [h]
    conv_rhs => unfold gapsFrom
    split <;> simp

theorem iteration_exit (exist : List Int) (limit : Int) (c : Bool) (i : Int)
    (h : iteration exist limit c i = Iter.exit) : ¬ i ≤ limit := by
  unfold iteration at h
  intro hi
  rw [if_pos hi] at h
  split at h
  · cases h
  · split at h <;> cases h

theorem iteration_interrupted (exist : List Int) (limit : Int) (c : Bool) (i : Int)
    (h : iteration exist limit c i = Iter.interrupted) : i ≤ limit ∧ c = true := by
  unfold iteration at h
  split at h
  · rename_i hi
    refine ⟨hi, ?_⟩
    split at h
    · assumption
    · split at h <;> cases h
  · cases h

theorem iteration_skip (exist : List Int) (limit : Int) (c : Bool) (i : Int)
    (h : iteration exist limit c i = Iter.skip) : i ≤ limit ∧ c = false ∧ i ∈ exist := by
  unfold iteration at h
  split at h
  · rename_i hi
    refine ⟨hi, ?_⟩
    split at h
    · cases h
    · rename_i hc
      split at h
      · rename_i hm; exact ⟨by simpa using hc, hm⟩
      · cases h
  · cases h

theorem iteration_send (exist : List Int) (limit : Int) (c : Bool) (i : Int)
    (h : iteration exist limit c i = Iter.send) : i ≤ limit ∧ c = false ∧ i ∉ exist := by
  unfold iteration at h
  split at h
  · rename_i hi
    refine ⟨hi, ?_⟩
    split at h
    · cases h
    · rename_i hc
      split at h
      · cases h
      · rename_i hm; exact ⟨by simpa using hc, hm⟩
  · cases h

/-- The progress of the Gap Detector in a run whose `repo.GetAll()` returns
`existing`. -/
theorem producerInv_reachable {Info σ : Type} (cfg : Setup Info σ) (store : σ)
    (existing : List Comix) (hget : cfg.getAll store = Except.ok existing) :
    ∀ s, Reachable cfg store s → ProducerInv existing s := by
  apply reachable_induction
  · unfold init; split <;> simp [ProducerInv]
  · intro s t hs ih hst
    cases hst with
    | cancel _ _ =>
      unfold ProducerInv at ih ⊢
      simp only [] at ih ⊢
      split
      · rename_i hp; rw [hp] at ih; exact ih
      · rename_i hp; rw [hp] at ih; exact ih
      · rename_i hp; rw [hp] at ih; exact ih
      · rename_i hp; rw [hp] at ih; exact ih
      · rename_i hp; rw [hp] at ih; exact ⟨trivial, ih.2⟩
    | getAllError e _ hp he =>
      exfalso
      unfold ProducerInv at ih
      rw [hp] at ih
      have h1 := (idle_of_handed_nil cfg store s hs ih).1
      have h2 := store_eq_storeAfter cfg store s hs
      rw [h1] at h2
      simp only [storeAfter] at h2
      rw [h2, hget] at he
      cases he
    | getAllOk a _ hp ha =>
      unfold ProducerInv at ih
      rw [hp] at ih
      have h1 := (idle_of_handed_nil cfg store s hs ih).1
      have h2 := store_eq_storeAfter cfg store s hs
      rw [h1] at h2
      simp only [storeAfter] at h2
      rw [h2, hget] at ha
      cases ha
      simp only [ProducerInv]
      refine ⟨trivial, by decide, fun _ => ⟨le_refl _, by simp, ?_⟩⟩
      simpa [gapsFrom] using ih
    | loopExit ex i _ hp hi =>
      unfold ProducerInv at ih
      rw [hp] at ih
      obtain ⟨h1, h2, h3⟩ := ih
      have hlt := iteration_exit _ _ _ _ hi
      have hlim : s.limit < maxInt := by omega
      obtain ⟨h4, h5, h6⟩ := h3 hlim
      simp only [ProducerInv]
      refine ⟨hlim, ?_⟩
      have : (i - 1).toNat = s.limit.toNat := by omega
      rw [h6, this, h1]
    | loopInterrupted ex i _ hp hi =>
      unfold ProducerInv at ih
      rw [hp] at ih
      obtain ⟨h1, h2, h3⟩ := ih
      simp only [ProducerInv]
      refine ⟨(iteration_interrupted _ _ _ _ hi).2, fun hlim => ?_⟩
      obtain ⟨h4, h5, h6⟩ := h3 hlim
      exact ⟨_, h5, h1 ▸ h6⟩
    | loopSkip ex i _ hp hi =>
      unfold ProducerInv at ih
      rw [hp] at ih
      obtain ⟨h1, h2, h3⟩ := ih
      obtain ⟨hi1, _, hi3⟩ := iteration_skip _ _ _ _ hi
      simp only [ProducerInv]
      refine ⟨h1, wrapInt_le _, fun hlim => ?_⟩
      obtain ⟨h4, h5, h6⟩ := h3 hlim
      have hw : wrapInt (i + 1) = i + 1 := wrapInt_eq _ (by omega) (by omega)
      have hn : (i + 1 - 1).toNat = (i - 1).toNat + 1 := by omega
      rw [hw, hn, gapsFrom_succ]
      have hc : (1 : Int) + ((i - 1).toNat : Nat) = i := by omega
      rw [hc, if_pos hi3]
      exact ⟨by omega, by omega, by simpa using h6⟩
    | loopSend ex i _ hp hi =>
      unfold ProducerInv at ih
      rw [hp] at ih
      obtain ⟨h1, h2, h3⟩ := ih
      obtain ⟨hi1, _, hi3⟩ := iteration_send _ _ _ _ hi
      simp only [ProducerInv]
      exact ⟨h1, h2, hi3, hi1, fun hlim => ⟨(h3 hlim).1, (h3 hlim).2.2⟩⟩
    | handoff w ex i b _ hp hw =>
      unfold ProducerInv at ih
      rw [hp] at ih
      obtain ⟨h1, h2, h3, h4, h5⟩ := ih
      simp only [ProducerInv]
      refine ⟨h1, wrapInt_le _, fun hlim => ?_⟩
      obtain ⟨h6, h7⟩ := h5 hlim
      have hw : wrapInt (i + 1) = i + 1 := wrapInt_eq _ (by omega) (by omega)
      have hn : (i + 1 - 1).toNat = (i - 1).toNat + 1 := by omega
      rw [hw, hn, gapsFrom_succ]
      have hc : (1 : Int) + ((i - 1).toNat : Nat) = i := by omega
      rw [hc, if_neg h3, h7]
      exact ⟨by omega, by omega, rfl⟩
    | _ => exact ih

theorem flatten_map_set {α β : Type} (f : α → List β) (l : List α) :
    ∀ (n : Nat) (a b : α), l[n]? = some a →
      ∃ rest, ((l.map f).flatten).Perm (f a ++ rest) ∧
        (((l.set n b).map f).flatten).Perm (f b ++ rest) := by
  induction l with
  | nil => intro n a b h; simp at h
  | cons x xs ih =>
    intro n a b h
    cases n with
    | zero =>
      simp only [List.getElem?_cons_zero, Option.some.injEq] at h
      subst h
      exact ⟨(xs.map f).flatten, by simp, by simp⟩
    | succ n =>
      simp only [List.getElem?_cons_succ] at h
      obtain ⟨rest, h1, h2⟩ := ih n a b h
      refine ⟨f x ++ rest, ?_, ?_⟩
      · simp only [List.map_cons, List.flatten_cons]
        exact ((List.Perm.append_left (f x) h1).trans
          (by rw [← List.append_assoc, ← List.append_assoc]
              exact List.Perm.append_right rest List.perm_append_comm))
      · simp only [List.set_cons_succ, List.map_cons, List.flatten_cons]
        exact ((List.Perm.append_left (f x) h2).trans
          (by rw [← List.append_assoc, ← List.append_assoc]
              exact List.Perm.append_right rest List.perm_append_comm))

theorem flatten_map_set_append {α β : Type} (f : α → List β) (l : List α)
    (n : Nat) (a b : α) (e : List β) (h : l[n]? = some a) (hf : f b = f a ++ e) :
    (((l.set n b).map f).flatten).Perm ((l.map f).flatten ++ e) := by
  obtain ⟨rest, h1, h2⟩ := flatten_map_set f l n a b h
  refine h2.trans ?_
  rw [hf]
  refine List.Perm.trans ?_ (List.Perm.append_right e h1.symm)
  rw [List.append_assoc, List.append_assoc]
  exact List.Perm.append_left (f a) List.perm_append_comm

theorem flatten_map_set_remove {α β : Type} (f : α → List β) (l : List α)
    (n : Nat) (a b : α) (h : l[n]? = some a) (hf : f b = []) :
    ((l.map f).flatten).Perm (f a ++ ((l.set n b).map f).flatten) := by
  obtain ⟨rest, h1, h2⟩ := flatten_map_set f l n a b h
  rw [hf, List.nil_append] at h2
  exact h1.trans (List.Perm.append_left (f a) h2.symm)

theorem received_some {Info : Type} (f : Info → Comix) (batchSize : Int)
    (batch : List Comix) (res : Except GoError Info) (b : List Comix)
    (h : (received f batchSize batch res).1 = some b) :
    (received f batchSize batch res).2 = [] := by
  unfold received at h ⊢
  simp only [] at h ⊢
  split
  · rename_i heq
    rw [if_pos heq] at h
    unfold sendBatch at h ⊢
    split
    · rfl
    · rename_i hlen
      rw [if_neg hlen] at h
      cases h
  · rename_i hne
    rw [if_neg hne] at h
    cases h

theorem pending_leave {Info σ : Type} (cfg : Setup Info σ) (batch : List Comix) :
    pending cfg (leave batch) = batch := by
  cases batch <;> simp [leave, sendBatch, pending]

theorem pending_afterFetch {Info σ : Type} (cfg : Setup Info σ) (batch : List Comix)
    (id : Int) :
    pending cfg (afterFetch cfg batch (cfg.getByID id)) = batch ++ (cfg.item id).toList := by
  have hj := received_join cfg.fromComixInfo cfg.batchSize batch (cfg.getByID id)
  have hitem : (cfg.item id).toList = (match cfg.getByID id with
      | Except.ok info => [cfg.fromComixInfo info]
      | Except.error _ => []) := by
    unfold Setup.item
    cases cfg.getByID id <;> rfl
  rw [hitem, ← hj]
  unfold afterFetch
  rcases hr : received cfg.fromComixInfo cfg.batchSize batch (cfg.getByID id) with ⟨_ | b, b1⟩
  · simp [pending]
  · have := received_some cfg.fromComixInfo cfg.batchSize batch (cfg.getByID id) b
      (by rw [hr])
    rw [hr] at this
    simp only at this
    subst this
    simp [pending]

/-- Without cancellation every item fetched is either in a batch passed to
`BulkInsert` or still with a worker, once each. -/
theorem accounting {Info σ : Type} (cfg : Setup Info σ) (store : σ) :
    ∀ s, Reachable cfg store s → s.cancelled = false →
      (s.calls.flatten ++ (s.workers.map (pending cfg)).flatten).Perm
        (s.handed.filterMap cfg.item) := by
  apply reachable_induction
  · intro _
    unfold init
    split
    · simp
    · simp only [List.flatten_nil, List.nil_append, List.filterMap_nil, List.perm_nil]
      rw [List.flatten_eq_nil_iff]
      intro l hl
      obtain ⟨w, hw, rfl⟩ := List.mem_map.1 hl
      rw [List.eq_of_mem_replicate hw]
      rfl
  · intro s t _ ih hst
    cases hst with
    | cancel => intro h; simp at h
    | handoff w ex i b _ hp hw =>
      intro hc
      have h1 := flatten_map_set_append (pending cfg) s.workers w _
        (Worker.fetching b i) (cfg.item i).toList hw rfl
      simp only [List.filterMap_append]
      have h2 : (List.filterMap cfg.item [i]) = (cfg.item i).toList := by
        cases h : cfg.item i <;> simp [List.filterMap, h]
      rw [h2]
      refine (List.Perm.append_left _ h1).trans ?_
      rw [← List.append_assoc]
      exact List.Perm.append_right _ (ih hc)
    | closedRecv w e b _ hp hw =>
      intro hc
      have h1 := flatten_map_set_append (pending cfg) s.workers w _
        (leave b) [] hw (by rw [pending_leave, List.append_nil]; rfl)
      rw [List.append_nil] at h1
      exact (List.Perm.append_left _ h1).trans (ih hc)
    | doneRecv w b _ hcan hw =>
      intro hc
      simp only [] at hc
      rw [hcan] at hc; cases hc
    | fetched w a b id _ hw hab =>
      intro hc
      simp only [] at hc
      have ha : a = false := by
        cases a
        · rfl
        · have := hab rfl
          rw [hc] at this; cases this
      subst ha
      have h1 := flatten_map_set_append (pending cfg) s.workers w _
        (afterFetch cfg b (cfg.getByID id)) [] hw
        (by rw [pending_afterFetch, List.append_nil]; rfl)
      rw [List.append_nil] at h1
      exact (List.Perm.append_left _ h1).trans (ih hc)
    | deliver w b f _ hw =>
      intro hc
      have h1 := flatten_map_set_remove (pending cfg) s.workers w _
        (if f then Worker.exited else Worker.selecting []) hw
        (by cases f <;> rfl)
      simp only [List.flatten_append, List.flatten_cons, List.flatten_nil, List.append_nil,
        List.append_assoc]
      exact (List.Perm.append_left _ h1.symm).trans (ih hc)
    | _ => exact ih

/-- The bound and the number of workers do not change. -/
theorem limit_workers_const {Info σ : Type} (cfg : Setup Info σ) (store : σ) :
    ∀ s, Reachable cfg store s →
      s.limit = (init cfg store).limit ∧
      s.workers.length = (init cfg store).workers.length := by
  apply reachable_induction
  · exact ⟨rfl, rfl⟩
  · intro s t _ ih hst
    cases hst <;> simpa using ih

/-- While `run` has not panicked every call of `BulkInsert` has returned `nil`. -/
theorem calls_succeeded {Info σ : Type} (cfg : Setup Info σ) (store : σ) :
    ∀ s, Reachable cfg store s → (∀ e, s.main ≠ Main.panicked e) →
      ∀ x ∈ callErrors cfg.bulkInsert store s.calls, x = none := by
  intro s hs
  induction hs with
  | start =>
    intro _ x hx
    have : (init cfg store).calls = [] := by unfold init; split <;> rfl
    rw [this] at hx
    simp [callErrors] at hx
  | next l hr hst ih =>
    rename_i s t
    have hstore := store_eq_storeAfter cfg store s hr
    have hst := step_sound cfg l _ _ hst
    cases hst with
    | deliver w b f hm hw =>
      intro hne x hx
      simp only [callErrors_append, List.mem_append, List.mem_singleton] at hx
      rcases hx with hx | hx
      · exact ih (fun e h => by rw [hm] at h; cases h) x hx
      · rw [← hstore] at hx
        subst hx
        cases hr2 : (cfg.bulkInsert s.store b).2 with
        | none => rfl
        | some e =>
          exfalso
          apply hne e
          simp only [hr2]
    | rangeEnd hm _ =>
      intro _ x hx
      exact ih (fun e h => by rw [hm] at h; cases h) x hx
    | _ => exact ih

theorem getAll_storeAfter {σ : Type} (getAll : σ → Except GoError (List Comix))
    (bulkInsert : σ → List Comix → σ × Option GoError)
    (happ : ∀ st b contents, getAll st = Except.ok contents → (bulkInsert st b).2 = none →
      ∃ after, getAll (bulkInsert st b).1 = Except.ok after ∧ after.Perm (contents ++ b))
    (calls : List (List Comix)) :
    ∀ (st : σ) (contents : List Comix), getAll st = Except.ok contents →
      (∀ x ∈ callErrors bulkInsert st calls, x = none) →
      ∃ final, getAll (storeAfter bulkInsert st calls) = Except.ok final ∧
        final.Perm (contents ++ calls.flatten) := by
  induction calls with
  | nil => intro st contents h _; exact ⟨contents, h, by simp⟩
  | cons b calls ih =>
    intro st contents h hall
    obtain ⟨after, h1, h2⟩ := happ st b contents h (hall _ (by simp [callErrors]))
    obtain ⟨final, h3, h4⟩ := ih _ after h1 (fun x hx => hall x (by simp [callErrors, hx]))
    refine ⟨final, h3, h4.trans ?_⟩
    simp only [List.flatten_cons, ← List.append_assoc]
    exact List.Perm.append_right _ h2

theorem map_ID_filterMap_item {Info σ : Type} (cfg : Setup Info σ)
    (hid : ∀ i c, cfg.item i = some c → c.ID = i) (ids : List Int) :
    (ids.filterMap cfg.item).map (fun c => c.ID)
      = ids.filter (fun i => (cfg.item i).isSome) := by
  induction ids with
  | nil => rfl
  | cons i ids ih =>
    cases h : cfg.item i with
    | none => simp [List.filterMap_cons, List.filter_cons, h, ih]
    | some c => simp [List.filterMap_cons, List.filter_cons, h, ih, hid i c h]

/-- A run that returns without cancellation has handed out exactly the gaps. -/
theorem handed_of_returned {Info σ : Type} (cfg : Setup Info σ) (store : σ)
    (limit : Int) (existing : List Comix)
    (hlimit : cfg.lastComixNum = Except.ok limit)
    (hget : cfg.getAll store = Except.ok existing)
    (hworkers : 1 ≤ cfg.numberOfWorkers)
    (s : State σ) (hs : Reachable cfg store s)
    (hret : s.main = Main.returned) (hcancel : s.cancelled = false) :
    limit < maxInt ∧ s.handed = gapsFrom (existKeys existing) 1 limit.toNat ∧
      ∀ w ∈ s.workers, w = Worker.exited := by
  have hclosed := closed_after_workers cfg store s hs
  have hall := hclosed.1 (hclosed.2 hret)
  have hconst := limit_workers_const cfg store s hs
  have hinit : (init cfg store).limit = limit ∧
      (init cfg store).workers.length = cfg.numberOfWorkers.toNat := by
    unfold init; rw [hlimit]; simp
  rw [hinit.1, hinit.2] at hconst
  have hlen : 0 < s.workers.length := by omega
  obtain ⟨w, hw⟩ : ∃ w, w ∈ s.workers := by
    cases hws : s.workers with
    | nil => rw [hws] at hlen; simp at hlen
    | cons w _ => exact ⟨w, by simp⟩
  obtain ⟨e, he⟩ := returned_of_worker_left cfg store s hs hcancel w hw (Or.inl (hall w hw))
  have hprod := producerInv_reachable cfg store existing hget s hs
  unfold ProducerInv at hprod
  rw [he] at hprod
  cases e with
  | none =>
    simp only [] at hprod
    rw [hconst.1] at hprod
    exact ⟨hprod.1, hprod.2, hall⟩
  | some e =>
    simp only [] at hprod
    rw [hcancel] at hprod
    exact absurd hprod.1 (by simp)

theorem mem_existKeys (existing : List Comix) (i : Int) :
    i ∉ existKeys existing ↔ ∀ c ∈ existing, c.ID ≠ i := by
  simp [existKeys]

/-- The gaps up to `limit`: the identifiers of `[1, limit]` that no existing item has. -/
theorem mem_gaps (existing : List Comix) (limit i : Int) :
    i ∈ gapsFrom (existKeys existing) 1 limit.toNat
      ↔ 1 ≤ i ∧ i ≤ limit ∧ ∀ c ∈ existing, c.ID ≠ i := by
  rw [mem_gapsFrom, mem_existKeys]
  constructor
  · rintro ⟨h1, h2, h3⟩
    exact ⟨h1, by omega, h3⟩
  · rintro ⟨h1, h2, h3⟩
    exact ⟨h1, by omega, h3⟩

/-- With `maxInt ≤ limit` the loop condition `i <= limit` holds for every `int`:
the loop of `writeMissingIDs`, not cancelled, never returns. -/
theorem writeLoop_never_returns (exist : List Int) (limit : Int) (done : Nat → Bool)
    (hdone : ∀ k, done k = false) (hlim : maxInt ≤ limit) :
    ∀ (fuel k : Nat) (i : Int), i ≤ maxInt →
      writeLoop exist limit done fuel k i = none := by
  intro fuel
  induction fuel with
  | zero => intro k i _; rfl
  | succ f ih =>
    intro k i hi
    have hrec := ih (k + 1) (wrapInt (i + 1)) (wrapInt_le _)
    have hil : i ≤ limit := le_trans hi hlim
    unfold writeLoop
    by_cases hex : i ∈ exist
    · simp [iteration, hil, hdone, hex, hrec]
    · simp [iteration, hil, hdone, hex, hrec]

/-- Whatever the fuel, a loop of `writeMissingIDs` that returns without
cancellation has sent the gaps and returns `nil`. -/
theorem writeLoop_some (exist : List Int) (limit : Int) (done : Nat → Bool)
    (hdone : ∀ k, done k = false) (hlim : limit < maxInt) :
    ∀ (fuel k : Nat) (i : Int) (r : List Int × Option GoError),
      -9223372036854775808 ≤ i → i ≤ maxInt →
      writeLoop exist limit done fuel k i = some r →
      r = (gapsFrom exist i (limit + 1 - i).toNat, none) := by
  intro fuel
  induction fuel with
  | zero => intro k i r _ _ h; simp [writeLoop] at h
  | succ f ih =>
    intro k i r hi0 hi1 h
    by_cases hil : i ≤ limit
    · have hw : wrapInt (i + 1) = i + 1 := wrapInt_eq _ (by omega) (by omega)
      obtain ⟨n, hn⟩ : ∃ n, (limit + 1 - i).toNat = n + 1 :=
        ⟨(limit + 1 - i).toNat - 1, by omega⟩
      have hn2 : (limit + 1 - (i + 1)).toNat = n := by omega
      unfold writeLoop at h
      rw [hn]
      unfold gapsFrom
      by_cases hex : i ∈ exist
      · simp only [iteration, hil, hdone, hex, if_true, hw] at h
        simp only [Bool.false_eq_true, if_false] at h
        have := ih (k + 1) (i + 1) r (by omega) (by unfold maxInt at hlim ⊢; omega) h
        rw [hn2] at this
        rw [if_pos hex, this]
      · simp only [iteration, hil, hdone, hex, if_true, hw] at h
        simp only [Bool.false_eq_true, if_false] at h
        cases hrec : writeLoop exist limit done f (k + 1) (i + 1) with
        | none => rw [hrec] at h; simp at h
        | some r2 =>
          rw [hrec] at h
          have := ih (k + 1) (i + 1) r2 (by omega) (by unfold maxInt at hlim ⊢; omega) hrec
          rw [hn2] at this
          simp only [Option.map_some', Option.some.injEq] at h
          rw [if_neg hex, ← h, this]
    · have hn : (limit + 1 - i).toNat = 0 := by omega
      unfold writeLoop at h
      simp only [iteration, hil, if_false, Option.some.injEq] at h
      rw [hn, ← h]
      rfl

/-- When `repo.GetAll()` fails no identifier is ever handed out. -/
theorem nothing_handed_of_getAll_error {Info σ : Type} (cfg : Setup Info σ) (store : σ)
    (e : GoError) (hget : cfg.getAll store = Except.error e) :
    ∀ s, Reachable cfg store s →
      s.handed = [] ∧
      (s.producer = Producer.start ∨ s.producer = Producer.returned (some e)) := by
  intro s hs
  induction hs with
  | start => unfold init; split <;> exact ⟨rfl, Or.inl rfl⟩
  | next l hr hst ih =>
    rename_i s t
    have hstore := store_eq_storeAfter cfg store s hr
    rw [(idle_of_handed_nil cfg store s hr ih.1).1] at hstore
    simp only [storeAfter] at hstore
    have hst := step_sound cfg l _ _ hst
    obtain ⟨h1, h2⟩ := ih
    cases hst with
    | getAllError e2 _ hp he =>
      rw [hstore, hget] at he
      cases he
      exact ⟨h1, Or.inr rfl⟩
    | getAllOk a _ hp ha =>
      rw [hstore, hget] at ha
      cases ha
    | loopExit ex i _ hp _ => rcases h2 with h | h <;> (rw [hp] at h; cases h)
    | loopInterrupted ex i _ hp _ => rcases h2 with h | h <;> (rw [hp] at h; cases h)
    | loopSkip ex i _ hp _ => rcases h2 with h | h <;> (rw [hp] at h; cases h)
    | loopSend ex i _ hp _ => rcases h2 with h | h <;> (rw [hp] at h; cases h)
    | handoff w ex i b _ hp _ => rcases h2 with h | h <;> (rw [hp] at h; cases h)
    | _ => exact ⟨h1, h2⟩

/-- When every identifier of `[1, limit]` is in the store, no identifier is ever
handed out. -/
theorem nothing_handed_of_covered {Info σ : Type} (cfg : Setup Info σ) (store : σ)
    (limit : Int) (existing : List Comix)
    (hlimit : cfg.lastComixNum = Except.ok limit)
    (hget : cfg.getAll store = Except.ok existing)
    (hlim : limit < maxInt)
    (hcov : ∀ i, 1 ≤ i → i ≤ limit → i ∈ existKeys existing) :
    ∀ s, Reachable cfg store s → s.handed = [] := by
  intro s hs
  have hconst := (limit_workers_const cfg store s hs).1
  have hinit : (init cfg store).limit = limit := by unfold init; rw [hlimit]
  rw [hinit] at hconst
  have hnil : ∀ n, n ≤ limit.toNat → gapsFrom (existKeys existing) 1 n = [] := by
    intro n hn
    rw [List.eq_nil_iff_forall_not_mem]
    intro j hj
    obtain ⟨h1, h2, h3⟩ := (mem_gapsFrom _ _ _ _).1 hj
    exact h3 (hcov j h1 (by omega))
  have hprod := producerInv_reachable cfg store existing hget s hs
  unfold ProducerInv at hprod
  rw [hconst] at hprod
  split at hprod
  · exact hprod
  · obtain ⟨h1, _, h3⟩ := hprod
    obtain ⟨_, h5, h6⟩ := h3 hlim
    rw [h6, h1]
    exact hnil _ h5
  · obtain ⟨h1, _, h3, h4, h5⟩ := hprod
    obtain ⟨h6, _⟩ := h5 hlim
    exact absurd (h1 ▸ hcov _ h6 h4) h3
  · rw [hprod.2]
    exact hnil _ (le_refl _)
  · obtain ⟨n, hn, h⟩ := hprod.2 hlim
    rw [h]
    exact hnil _ hn

theorem callErrors_split {σ : Type} (f : σ → List Comix → σ × Option GoError)
    (pre rest : List (List Comix)) :
    ∀ st : σ, callErrors f st (pre ++ rest)
      = callErrors f st pre ++ callErrors f (storeAfter f st pre) rest := by
  induction pre with
  | nil => intro st; rfl
  | cons c cs ih => intro st; simp [storeAfter, callErrors, ih]

/-! ## Theorems: every run ends -/

theorem wrapInt_ge (x : Int) : -9223372036854775808 ≤ wrapInt x := by
  unfold wrapInt
  omega

/-- The loop counter of `writeMissingIDs` is an `int`, and an identifier on
offer is within the limit. -/
theorem counter_in_range {Info σ : Type} (cfg : Setup Info σ) (store : σ) :
    ∀ s, Reachable cfg store s →
      (∀ ex i, s.producer = Producer.loop ex i → -9223372036854775808 ≤ i) ∧
      (∀ ex i, s.producer = Producer.sending ex i →
        -9223372036854775808 ≤ i ∧ i ≤ s.limit) := by
  apply reachable_induction
  · constructor
    · intro ex i h; unfold init at h; split at h <;> cases h
    · intro ex i h; unfold init at h; split at h <;> cases h
  · intro s t _ ih hst
    obtain ⟨h1, h2⟩ := ih
    cases hst with
    | getAllError => exact ⟨fun _ _ h => (by cases h), fun _ _ h => (by cases h)⟩
    | getAllOk =>
      refine ⟨fun _ _ h => ?_, fun _ _ h => (by cases h)⟩
      cases h
      decide
    | loopExit => exact ⟨fun _ _ h => (by cases h), fun _ _ h => (by cases h)⟩
    | loopInterrupted => exact ⟨fun _ _ h => (by cases h), fun _ _ h => (by cases h)⟩
    | loopSkip ex i _ hp _ =>
      refine ⟨fun _ _ h => ?_, fun _ _ h => (by cases h)⟩
      cases h
      exact wrapInt_ge _
    | loopSend ex i _ hp hi =>
      refine ⟨fun _ _ h => (by cases h), fun _ _ h => ?_⟩
      cases h
      exact ⟨h1 _ _ hp, (iteration_send _ _ _ _ hi).1⟩
    | handoff w ex i b _ hp _ =>
      refine ⟨fun _ _ h => ?_, fun _ _ h => (by cases h)⟩
      cases h
      exact wrapInt_ge _
    | _ => exact ⟨h1, h2⟩

theorem sum_map_set {α : Type} (f : α → Nat) (l : List α) :
    ∀ (n : Nat) (a b : α), l[n]? = some a →
      ((l.set n b).map f).sum + f a = (l.map f).sum + f b := by
  induction l with
  | nil => intro n a b h; simp at h
  | cons x xs ih =>
    intro n a b h
    cases n with
    | zero =>
      simp only [List.getElem?_cons_zero, Option.some.injEq] at h
      subst h
      simp only [List.set_cons_zero, List.map_cons, List.sum_cons]
      omega
    | succ n =>
      simp only [List.getElem?_cons_succ] at h
      have := ih n a b h
      simp only [List.set_cons_succ, List.map_cons, List.sum_cons]
      omega

theorem workerWeight_leave (batch : List Comix) : workerWeight (leave batch) ≤ 1 := by
  cases batch <;> simp [leave, sendBatch, workerWeight]

theorem workerWeight_afterFetch {Info σ : Type} (cfg : Setup Info σ) (batch : List Comix)
    (res : Except GoError Info) : workerWeight (afterFetch cfg batch res) ≤ 3 := by
  unfold afterFetch
  split <;> simp [workerWeight]

/-- Every step lowers `stepsLeft` when the limit is below `maxInt`. -/
theorem step_decreases {Info σ : Type} (cfg : Setup Info σ) (s t : State σ)
    (hlim : ∀ ex i, s.producer = Producer.loop ex i ∨ s.producer = Producer.sending ex i →
      s.limit < maxInt)
    (hloop : ∀ ex i, s.producer = Producer.loop ex i → -9223372036854775808 ≤ i)
    (hsend : ∀ ex i, s.producer = Producer.sending ex i →
      -9223372036854775808 ≤ i ∧ i ≤ s.limit)
    (hst : Step cfg s t) : stepsLeft t < stepsLeft s := by
  cases hst with
  | cancel _ hc => simp [stepsLeft, hc]
  | getAllError e _ hp _ => simp only [stepsLeft, hp, producerWeight]; omega
  | getAllOk a _ hp _ => simp only [stepsLeft, hp, producerWeight]; omega
  | loopExit ex i _ hp _ => simp only [stepsLeft, hp, producerWeight]; omega
  | loopInterrupted ex i _ hp _ => simp only [stepsLeft, hp, producerWeight]; omega
  | loopSkip ex i _ hp hi =>
    have h1 := (iteration_skip _ _ _ _ hi).1
    have h2 := hloop ex i hp
    have h3 := hlim ex i (Or.inl hp)
    unfold maxInt at h3
    have hw : wrapInt (i + 1) = i + 1 := wrapInt_eq _ (by omega) (by unfold maxInt; omega)
    simp only [stepsLeft, hp, producerWeight, hw]
    omega
  | loopSend ex i _ hp hi => simp only [stepsLeft, hp, producerWeight]; omega
  | handoff w ex i b _ hp hw =>
    obtain ⟨h1, h2⟩ := hsend ex i hp
    have h3 := hlim ex i (Or.inr hp)
    unfold maxInt at h3
    have hwr : wrapInt (i + 1) = i + 1 := wrapInt_eq _ (by omega) (by unfold maxInt; omega)
    have hsum := sum_map_set workerWeight s.workers w _ (Worker.fetching b i) hw
    have e1 : workerWeight (Worker.selecting b) = 2 := rfl
    have e2 : workerWeight (Worker.fetching b i) = 4 := rfl
    rw [e1, e2] at hsum
    simp only [stepsLeft, hp, producerWeight, hwr]
    omega
  | closedRecv w e b _ hp hw =>
    have hsum := sum_map_set workerWeight s.workers w _ (leave b) hw
    have := workerWeight_leave b
    have e1 : workerWeight (Worker.selecting b) = 2 := rfl
    rw [e1] at hsum
    simp only [stepsLeft]
    omega
  | doneRecv w b _ _ hw =>
    have hsum := sum_map_set workerWeight s.workers w _ (leave b) hw
    have := workerWeight_leave b
    have e1 : workerWeight (Worker.selecting b) = 2 := rfl
    rw [e1] at hsum
    simp only [stepsLeft]
    omega
  | fetched w a b id _ hw _ =>
    have hsum := sum_map_set workerWeight s.workers w _
      (afterFetch cfg b (if a then Except.error ctxErr else cfg.getByID id)) hw
    have := workerWeight_afterFetch cfg b (if a then Except.error ctxErr else cfg.getByID id)
    have e1 : workerWeight (Worker.fetching b id) = 4 := rfl
    rw [e1] at hsum
    simp only [stepsLeft]
    omega
  | deliver w b f hm hw =>
    have hsum := sum_map_set workerWeight s.workers w _
      (if f then Worker.exited else Worker.selecting []) hw
    have hmain : (match (match (cfg.bulkInsert s.store b).2 with
          | none => Main.ranging
          | some e => Main.panicked e) with
        | Main.ranging => 1
        | _ => 0) ≤ 1 := by
      split <;> omega
    cases f with
    | true =>
      simp only [workerWeight, if_true] at hsum
      simp only [stepsLeft, hm, if_true]
      omega
    | false =>
      simp only [workerWeight, Bool.false_eq_true, if_false] at hsum
      simp only [stepsLeft, hm, Bool.false_eq_true, if_false]
      omega
  | closeBatches _ hc _ => simp [stepsLeft, hc]
  | rangeEnd hm hc => simp [stepsLeft, hm, hc]

/-- While `run` is in its loop some goroutine can take a step: the pipeline
cannot get stuck. -/
theorem progress_isSome {Info σ : Type} (cfg : Setup Info σ) (s : State σ)
    (hmain : s.main = Main.ranging) :
    ∃ l, l ≠ Label.cancel ∧ (step cfg l s).isSome = true := by
  by_cases hclosed : s.batchesClosed = true
  · exact ⟨Label.rangeEnd, by simp, by simp [step, hmain, hclosed]⟩
  · by_cases hall : allExited s.workers = true
    · exact ⟨Label.closeBatches, by simp, by simp [step, hmain, hclosed, hall]⟩
    · have : ∃ w ∈ s.workers, w ≠ Worker.exited := by
        by_contra hno
        push_neg at hno
        exact hall (by simpa [allExited] using hno)
      obtain ⟨w, hw, hne⟩ := this
      obtain ⟨k, hk⟩ := List.mem_iff_getElem?.1 hw
      cases w with
      | exited => exact absurd rfl hne
      | fetching b id =>
        exact ⟨Label.fetched k false, by simp, by simp [step, hmain, hk]⟩
      | flushing b f =>
        exact ⟨Label.deliver k, by simp, by simp [step, hmain, hk]⟩
      | selecting b =>
        cases hp : s.producer with
        | start =>
          cases hg : cfg.getAll s.store with
          | error e =>
            exact ⟨Label.producer, by simp, by simp [step, hmain, producerStep, hp, hg]⟩
          | ok a =>
            exact ⟨Label.producer, by simp, by simp [step, hmain, producerStep, hp, hg]⟩
        | loop ex i =>
          cases hi : iteration ex s.limit s.cancelled i with
          | exit =>
            exact ⟨Label.producer, by simp, by simp [step, hmain, producerStep, hp, hi]⟩
          | interrupted =>
            exact ⟨Label.producer, by simp, by simp [step, hmain, producerStep, hp, hi]⟩
          | skip =>
            exact ⟨Label.producer, by simp, by simp [step, hmain, producerStep, hp, hi]⟩
          | send =>
            exact ⟨Label.producer, by simp, by simp [step, hmain, producerStep, hp, hi]⟩
        | sending ex i =>
          exact ⟨Label.handoff k, by simp, by simp [step, hmain, hp, hk]⟩
        | returned e =>
          exact ⟨Label.closedRecv k, by simp, by simp [step, hmain, hp, hk]⟩

theorem progress {Info σ : Type} (cfg : Setup Info σ) (s : State σ)
    (hmain : s.main = Main.ranging) :
    ∃ l t, l ≠ Label.cancel ∧ step cfg l s = some t := by
  obtain ⟨l, h1, h2⟩ := progress_isSome cfg s hmain
  obtain ⟨t, ht⟩ := Option.isSome_iff_exists.1 h2
  exact ⟨l, t, h1, ht⟩

/-- The length of a run is bounded by `stepsLeft`. -/
theorem exec_length_le {Info σ : Type} (cfg : Setup Info σ) (store : σ)
    (hlim : ∀ s, Reachable cfg store s →
      ∀ ex i, s.producer = Producer.loop ex i ∨ s.producer = Producer.sending ex i →
        s.limit < maxInt)
    (ls : List Label) :
    ∀ s t : State σ, Reachable cfg store s → exec cfg ls s = some t →
      ls.length + stepsLeft t ≤ stepsLeft s := by
  induction ls with
  | nil =>
    intro s t _ h
    cases Option.some.inj h
    simp
  | cons l ls ih =>
    intro s t hs h
    simp only [exec] at h
    cases hl : step cfg l s with
    | none => rw [hl] at h; cases h
    | some u =>
      rw [hl] at h
      simp only [Option.some_bind] at h
      have hrange := counter_in_range cfg store s hs
      have hdec := step_decreases cfg s u (hlim s hs) hrange.1 hrange.2
        (step_sound cfg l s u hl)
      have := ih u t (Reachable.next l hs hl) h
      simp only [List.length_cons]
      omega

/-- From every reachable state the run can be brought to its end without a
(further) cancellation. -/
theorem can_finish {Info σ : Type} (cfg : Setup Info σ) (store : σ)
    (hlim : ∀ s, Reachable cfg store s →
      ∀ ex i, s.producer = Producer.loop ex i ∨ s.producer = Producer.sending ex i →
        s.limit < maxInt) :
    ∀ (n : Nat) (s : State σ), stepsLeft s ≤ n → Reachable cfg store s →
      ∃ ls t, Label.cancel ∉ ls ∧ exec cfg ls s = some t ∧ t.main ≠ Main.ranging := by
  intro n
  induction n with
  | zero =>
    intro s hn hs
    refine ⟨[], s, by simp, rfl, fun hmain => ?_⟩
    simp only [stepsLeft, hmain] at hn
    omega
  | succ n ih =>
    intro s hn hs
    by_cases hmain : s.main = Main.ranging
    · obtain ⟨l, u, hne, hl⟩ := progress cfg s hmain
      have hrange := counter_in_range cfg store s hs
      have hdec := step_decreases cfg s u (hlim s hs) hrange.1 hrange.2
        (step_sound cfg l s u hl)
      obtain ⟨ls, t, h1, h2, h3⟩ := ih u (by omega) (Reachable.next l hs hl)
      refine ⟨l :: ls, t, ?_, by simp [exec, hl, h2], h3⟩
      simp only [List.mem_cons, not_or]
      exact ⟨fun h => hne h.symm, h1⟩
    · exact ⟨[], s, by simp, rfl, hmain⟩

/-- A panic of `run` carries the error of a failed `BulkInsert`, unless `run`
panicked before it started the pipeline. -/
theorem panic_from_bulkInsert {Info σ : Type} (cfg : Setup Info σ) (store : σ) :
    ∀ s, Reachable cfg store s → ∀ e, s.main = Main.panicked e →
      (init cfg store).main = Main.panicked e ∨
        some e ∈ callErrors cfg.bulkInsert store s.calls := by
  intro s hs
  induction hs with
  | start => intro e h; exact Or.inl h
  | next l hr hst ih =>
    rename_i s t
    have hstore := store_eq_storeAfter cfg store s hr
    have hst := step_sound cfg l _ _ hst
    cases hst with
    | deliver w b f hm hw =>
      intro e he
      right
      simp only [callErrors_append, List.mem_append, List.mem_singleton]
      right
      rw [← hstore]
      simp only [] at he
      split at he
      · cases he
      · rename_i e2 heq
        cases he
        exact heq.symm
    | rangeEnd hm _ => intro e he; cases he
    | cancel hm _ => intro e he; simp only [] at he; rw [hm] at he; cases he
    | getAllError e2 hm _ _ => intro e he; simp only [] at he; rw [hm] at he; cases he
    | getAllOk a hm _ _ => intro e he; simp only [] at he; rw [hm] at he; cases he
    | loopExit ex i hm _ _ => intro e he; simp only [] at he; rw [hm] at he; cases he
    | loopInterrupted ex i hm _ _ => intro e he; simp only [] at he; rw [hm] at he; cases he
    | loopSkip ex i hm _ _ => intro e he; simp only [] at he; rw [hm] at he; cases he
    | loopSend ex i hm _ _ => intro e he; simp only [] at he; rw [hm] at he; cases he
    | handoff w ex i b hm _ _ => intro e he; simp only [] at he; rw [hm] at he; cases he
    | closedRecv w e2 b hm _ _ => intro e he; simp only [] at he; rw [hm] at he; cases he
    | doneRecv w b hm _ _ => intro e he; simp only [] at he; rw [hm] at he; cases he
    | fetched w a b id hm _ _ => intro e he; simp only [] at he; rw [hm] at he; cases he
    | closeBatches hm _ _ => intro e he; simp only [] at he; rw [hm] at he; cases he

theorem stepsLeft_init {Info σ : Type} (cfg : Setup Info σ) (store : σ) (limit : Int)
    (hlimit : cfg.lastComixNum = Except.ok limit) :
    stepsLeft (init cfg store) ≤ 4 * limit.toNat + 2 * cfg.numberOfWorkers.toNat + 9 := by
  unfold init
  rw [hlimit]
  simp only [stepsLeft, producerWeight, List.map_replicate, List.sum_replicate, workerWeight,
    smul_eq_mul]
  split <;> simp <;> omega

theorem handoff_enabled {Info σ : Type} (cfg : Setup Info σ) (w : Nat) (s t : State σ)
    (h : step cfg (Label.handoff w) s = some t) :
    ∃ exist i, s.producer = Producer.sending exist i := by
  unfold step at h
  split at h
  · cases h
  · cases h
  · simp only [] at h
    split at h
    · rename_i ex i b hp hw
      exact ⟨ex, i, hp⟩
    · cases h

theorem producer_returns_when_cancelled {Info σ : Type} (cfg : Setup Info σ)
    (s t : State σ) (exist : List Int) (i : Int) (hc : s.cancelled = true)
    (hp : s.producer = Producer.loop exist i) (h : step cfg Label.producer s = some t) :
    ∃ err, t.producer = Producer.returned err := by
  unfold step at h
  split at h
  · cases h
  · cases h
  · simp only [producerStep, hp] at h
    split at h
    · cases Option.some.inj h
      exact ⟨_, rfl⟩
    · cases Option.some.inj h
      exact ⟨_, rfl⟩
    · rename_i hi
      have := (iteration_skip _ _ _ _ hi).2.1
      rw [hc] at this
      cases this
    · rename_i hi
      have := (iteration_send _ _ _ _ hi).2.1
      rw [hc] at this
      cases this

/-- With every worker gone nothing takes `writeMissingIDs` out of its send. -/
theorem blocked_forever {Info σ : Type} (cfg : Setup Info σ) (exist : List Int) (i : Int)
    (ls : List Label) :
    ∀ s t : State σ, (∀ w ∈ s.workers, w = Worker.exited) →
      s.producer = Producer.sending exist i → exec cfg ls s = some t →
      t.producer = Producer.sending exist i := by
  induction ls with
  | nil =>
    intro s t _ hp h
    cases Option.some.inj h
    exact hp
  | cons l ls ih =>
    intro s t hw hp h
    simp only [exec] at h
    cases hl : step cfg l s with
    | none => rw [hl] at h; cases h
    | some u =>
      rw [hl] at h
      simp only [Option.some_bind] at h
      have hst := step_sound cfg l s u hl
      have key : (∀ w ∈ u.workers, w = Worker.exited) ∧
          u.producer = Producer.sending exist i := by
        cases hst with
        | getAllError e _ hp2 _ => rw [hp] at hp2; cases hp2
        | getAllOk a _ hp2 _ => rw [hp] at hp2; cases hp2
        | loopExit ex j _ hp2 _ => rw [hp] at hp2; cases hp2
        | loopInterrupted ex j _ hp2 _ => rw [hp] at hp2; cases hp2
        | loopSkip ex j _ hp2 _ => rw [hp] at hp2; cases hp2
        | loopSend ex j _ hp2 _ => rw [hp] at hp2; cases hp2
        | handoff w ex j b _ _ hw2 => cases hw _ (List.getElem?_mem hw2)
        | closedRecv w e b _ _ hw2 => cases hw _ (List.getElem?_mem hw2)
        | doneRecv w b _ _ hw2 => cases hw _ (List.getElem?_mem hw2)
        | fetched w a b id _ hw2 _ => cases hw _ (List.getElem?_mem hw2)
        | deliver w b f _ hw2 => cases hw _ (List.getElem?_mem hw2)
        | cancel => exact ⟨hw, hp⟩
        | closeBatches => exact ⟨hw, hp⟩
        | rangeEnd => exact ⟨hw, hp⟩
      exact ih u t key.1 key.2 h

/-- What a run that has returned without cancellation has passed to
`BulkInsert`, and what that has made of the store. -/
theorem returned_run_inserted {Info σ : Type} (cfg : Setup Info σ) (store : σ)
    (limit : Int) (existing : List Comix)
    (hlimit : cfg.lastComixNum = Except.ok limit)
    (hget : cfg.getAll store = Except.ok existing)
    (hworkers : 1 ≤ cfg.numberOfWorkers)
    (s : State σ) (hs : Reachable cfg store s)
    (hret : s.main = Main.returned) (hcancel : s.cancelled = false) :
    ∃ ids : List Int,
      ids.Sorted (· < ·) ∧
      (∀ i, i ∈ ids ↔ 1 ≤ i ∧ i ≤ limit ∧ ∀ c ∈ existing, c.ID ≠ i) ∧
      s.calls.flatten.Perm (ids.filterMap cfg.item) ∧
      (∀ x ∈ callErrors cfg.bulkInsert store s.calls, x = none) ∧
      s.store = storeAfter cfg.bulkInsert store s.calls ∧
      ((∀ st b contents, cfg.getAll st = Except.ok contents →
          (cfg.bulkInsert st b).2 = none →
          ∃ after, cfg.getAll (cfg.bulkInsert st b).1 = Except.ok after ∧
            after.Perm (contents ++ b)) →
        (∀ i c, cfg.item i = some c → c.ID = i) →
        ∃ final, cfg.getAll s.store = Except.ok final ∧
          (final.map (fun c => c.ID)).Perm
            (existing.map (fun c => c.ID) ++ ids.filter (fun i => (cfg.item i).isSome))) := by
  obtain ⟨_, hhanded, hall⟩ :=
    handed_of_returned cfg store limit existing hlimit hget hworkers s hs hret hcancel
  have hacc := accounting cfg store s hs hcancel
  have hnil : (s.workers.map (pending cfg)).flatten = [] := by
    rw [List.flatten_eq_nil_iff]
    intro l hl
    obtain ⟨w, hw, rfl⟩ := List.mem_map.1 hl
    rw [hall w hw]
    rfl
  rw [hnil, List.append_nil, hhanded] at hacc
  have hok := calls_succeeded cfg store s hs (fun e h => by rw [hret] at h; cases h)
  have hstore := store_eq_storeAfter cfg store s hs
  refine ⟨gapsFrom (existKeys existing) 1 limit.toNat, sorted_gapsFrom _ _ _,
    mem_gaps existing limit, hacc, hok, hstore, fun happ hid => ?_⟩
  obtain ⟨final, h1, h2⟩ :=
    getAll_storeAfter cfg.getAll cfg.bulkInsert happ s.calls store existing hget hok
  refine ⟨final, hstore ▸ h1, ?_⟩
  have h3 := (h2.trans (List.Perm.append_left existing hacc)).map (fun c => c.ID)
  rw [List.map_append, map_ID_filterMap_item cfg hid] at h3
  exact h3

theorem limit_below_maxInt {Info σ : Type} (cfg : Setup Info σ) (store : σ) (limit : Int)
    (hlimit : cfg.lastComixNum = Except.ok limit) (hlim : limit < maxInt) :
    ∀ s, Reachable cfg store s →
      ∀ ex i, s.producer = Producer.loop ex i ∨ s.producer = Producer.sending ex i →
        s.limit < maxInt := by
  intro s hs _ _ _
  have h := (limit_workers_const cfg store s hs).1
  have hinit : (init cfg store).limit = limit := by unfold init; rw [hlimit]
  rw [h, hinit]
  exact hlim

theorem sinkLoop_append {σ : Type} (f : σ → List Comix → σ × Option GoError)
    (cs : List (List Comix)) (b : List Comix) :
    ∀ st : σ, (sinkLoop f st cs).panicked = none →
      sinkLoop f st (cs ++ [b])
        = { calls := cs ++ [b], store := (f (sinkLoop f st cs).store b).1,
            panicked := (f (sinkLoop f st cs).store b).2 } := by
  induction cs with
  | nil =>
    intro st _
    simp only [List.nil_append, sinkLoop]
    rcases hb : f st b with ⟨st1, _ | e⟩ <;> simp [sinkLoop]
  | cons c cs ih =>
    intro st h
    simp only [List.cons_append]
    unfold sinkLoop at h ⊢
    rcases hc : f st c with ⟨st1, _ | e⟩
    · rw [hc] at h
      simp only [] at h ⊢
      rw [ih st1 h]
    · rw [hc] at h
      simp at h

/-- The loop of `run` inside the pipeline does what `sinkLoop` does with the
batches delivered so far. -/
theorem deliveries_follow_sinkLoop {Info σ : Type} (cfg : Setup Info σ) (store : σ)
    (hinit : (init cfg store).main = Main.ranging) :
    ∀ s, Reachable cfg store s →
      (sinkLoop cfg.bulkInsert store s.calls).calls = s.calls ∧
      (sinkLoop cfg.bulkInsert store s.calls).store = s.store ∧
      ∀ e, (sinkLoop cfg.bulkInsert store s.calls).panicked = some e ↔
        s.main = Main.panicked e := by
  intro s hs
  induction hs with
  | start =>
    have hcalls : (init cfg store).calls = [] := by unfold init; split <;> rfl
    have hstore : (init cfg store).store = store := by unfold init; split <;> rfl
    rw [hcalls, hstore, hinit]
    simp [sinkLoop]
  | next l hr hst ih =>
    rename_i s t
    have hst := step_sound cfg l _ _ hst
    obtain ⟨h1, h2, h3⟩ := ih
    have hnone : s.main = Main.ranging →
        (sinkLoop cfg.bulkInsert store s.calls).panicked = none := by
      intro hm
      cases hp : (sinkLoop cfg.bulkInsert store s.calls).panicked with
      | none => rfl
      | some e =>
        have := (h3 e).1 hp
        rw [hm] at this
        cases this
    cases hst with
    | deliver w b f hm hw =>
      simp only []
      rw [sinkLoop_append cfg.bulkInsert s.calls b store (hnone hm), h2]
      refine ⟨rfl, rfl, fun e => ?_⟩
      simp only []
      cases (cfg.bulkInsert s.store b).2 with
      | none => simp
      | some e2 => simp
    | rangeEnd hm _ =>
      refine ⟨h1, h2, fun e => ?_⟩
      simp [hnone hm]
    | _ => exact ⟨h1, h2, h3⟩

/-- What a step does to the cancellation and to the count of late receipts. -/
theorem step_late {Info σ : Type} (cfg : Setup Info σ) (l : Label) (s u : State σ)
    (h : step cfg l s = some u) :
    u.cancelled = (s.cancelled || decide (l = Label.cancel)) ∧
    u.lateTakes = s.lateTakes + (if s.cancelled && isHandoff l then 1 else 0) ∧
    (l = Label.cancel → s.cancelled = false) := by
  unfold step at h
  split at h
  · cases h
  · cases h
  · cases l with
    | cancel =>
      simp only [] at h
      split at h
      · cases h
      · rename_i hc
        cases Option.some.inj h
        simp only [Bool.not_eq_true] at hc
        simp [isHandoff, hc]
    | producer =>
      simp only [producerStep] at h
      split at h
      · split at h <;> (cases Option.some.inj h; simp [isHandoff])
      · split at h <;> (cases Option.some.inj h; simp [isHandoff])
      · cases h
      · cases h
    | handoff w =>
      simp only [] at h
      split at h
      · cases Option.some.inj h
        cases hc : s.cancelled <;> simp [isHandoff, hc]
      · cases h
    | closedRecv w =>
      simp only [] at h
      split at h
      · cases Option.some.inj h; simp [isHandoff]
      · cases h
    | doneRecv w =>
      simp only [] at h
      split at h
      · cases Option.some.inj h; simp [isHandoff]
      · cases h
    | fetched w aborted =>
      simp only [] at h
      split at h
      · split at h
        · cases h
        · cases Option.some.inj h; simp [isHandoff]
      · cases h
    | deliver w =>
      simp only [] at h
      split at h
      · cases Option.some.inj h; simp [isHandoff]
      · cases h
    | closeBatches =>
      simp only [] at h
      split at h
      · cases Option.some.inj h; simp [isHandoff]
      · cases h
    | rangeEnd =>
      simp only [] at h
      split at h
      · cases Option.some.inj h; simp [isHandoff]
      · cases h

theorem lateTakes_cancelled {Info σ : Type} (cfg : Setup Info σ) (ls : List Label) :
    ∀ s t : State σ, s.cancelled = true → exec cfg ls s = some t →
      t.lateTakes = s.lateTakes + handoffs ls := by
  induction ls with
  | nil =>
    intro s t _ h
    cases Option.some.inj h
    simp [handoffs]
  | cons l ls ih =>
    intro s t hc h
    simp only [exec] at h
    cases hl : step cfg l s with
    | none => rw [hl] at h; cases h
    | some u =>
      rw [hl] at h
      simp only [Option.some_bind] at h
      obtain ⟨h1, h2, _⟩ := step_late cfg l s u hl
      rw [hc] at h1 h2
      have := ih u t (by simpa using h1) h
      rw [this, h2]
      cases hh : isHandoff l <;> simp [handoffs, List.filter_cons, hh]
      omega

/-- The count of late receipts kept in the state is the number of receipts
after the cancellation in the run. -/
theorem lateTakes_eq {Info σ : Type} (cfg : Setup Info σ) (ls : List Label) :
    ∀ s t : State σ, s.cancelled = false → exec cfg ls s = some t →
      t.lateTakes = s.lateTakes + lateHandoffs ls := by
  induction ls with
  | nil =>
    intro s t _ h
    cases Option.some.inj h
    simp [lateHandoffs]
  | cons l ls ih =>
    intro s t hc h
    simp only [exec] at h
    cases hl : step cfg l s with
    | none => rw [hl] at h; cases h
    | some u =>
      rw [hl] at h
      simp only [Option.some_bind] at h
      obtain ⟨h1, h2, _⟩ := step_late cfg l s u hl
      rw [hc] at h1 h2
      simp only [Bool.false_or, Bool.false_and, Bool.false_eq_true, if_false,
        Nat.add_zero] at h1 h2
      by_cases hcan : l = Label.cancel
      · subst hcan
        have := lateTakes_cancelled cfg ls u t (by simpa using h1) h
        rw [this, h2]
        rfl
      · have hu : u.cancelled = false := by simpa [hcan] using h1
        have := ih u t hu h
        rw [this, h2]
        cases l <;> first | rfl | exact absurd rfl hcan

/-! ## The claims -/

/-- C1, amended. For every collection `allComics` that `repo.GetAll()` returns
and every limit below the largest `int`, `writeMissingIDs`, not cancelled and
given enough steps, sends exactly the strictly increasing list of the
identifiers of `[1, limit]` that no item of `allComics` has (the empty list when
`limit ≤ 0`), then closes the stream and returns `nil`. -/
theorem writeMissingIDs_emits_gaps (allComics : List Comix) (limit : Int)
    (hlim : limit < maxInt) :
    ∃ ids : List Int,
      ids.Sorted (· < ·) ∧
      (∀ i, i ∈ ids ↔ 1 ≤ i ∧ i ≤ limit ∧ ∀ c ∈ allComics, c.ID ≠ i) ∧
      (limit ≤ 0 → ids = []) ∧
      ∀ fuel, limit.toNat < fuel →
        writeMissingIDs (Except.ok allComics) limit (fun _ => false) fuel
          = some (ids.map ChanOp.send ++ [ChanOp.close], none) := by
  refine ⟨gapsFrom (existKeys allComics) 1 limit.toNat, sorted_gapsFrom _ _ _,
    mem_gaps allComics limit, ?_, ?_⟩
  · intro h
    have : limit.toNat = 0 := by omega
    rw [this]
    rfl
  · intro fuel hfuel
    unfold writeMissingIDs
    simp only []
    rw [writeLoop_gaps (existKeys allComics) limit (fun _ => false) (fun _ => rfl) hlim
      limit.toNat fuel 0 1 (by decide) (by omega) hfuel]
    rfl

/-- C1 at a concrete input: a store holding 1, 2 and 4 and the limit 6. -/
theorem writeMissingIDs_emits_gaps_witness :
    (6 : Int) < maxInt ∧
    ∃ ids : List Int,
      ids.Sorted (· < ·) ∧
      (∀ i, i ∈ ids ↔ 1 ≤ i ∧ i ≤ 6 ∧ ∀ c ∈ store124, c.ID ≠ i) ∧
      ((6 : Int) ≤ 0 → ids = []) ∧
      ∀ fuel, (6 : Int).toNat < fuel →
        writeMissingIDs (Except.ok store124) 6 (fun _ => false) fuel
          = some (ids.map ChanOp.send ++ [ChanOp.close], none) :=
  ⟨by decide, writeMissingIDs_emits_gaps store124 6 (by decide)⟩

/-- C1 as stated fails for the limit `maxInt`: the condition `i <= limit` of the
loop is then true for every `int`, and `writeMissingIDs`, not cancelled, never
closes the stream and never returns, however many steps it is given. -/
theorem writeMissingIDs_maxInt_never_returns :
    ¬ ∃ fuel r, writeMissingIDs (Except.ok []) maxInt (fun _ => false) fuel = some r := by
  rintro ⟨fuel, r, h⟩
  unfold writeMissingIDs at h
  simp only [] at h
  rw [writeLoop_never_returns (existKeys []) maxInt (fun _ => false) (fun _ => rfl)
    (le_refl _) fuel 0 1 (by decide)] at h
  simp at h

/-- C2. Take any run of `run` with at least one worker, started on a store
holding `existing`, with the upper bound `limit`, whatever the batch size, the
failing fetches and the interleaving of the goroutines.
(1) When it has returned without cancellation, so that no `BulkInsert` failed,
the batches passed to `BulkInsert` hold, between them, exactly one item for each
identifier of `[1, limit]` that no item of `existing` has and whose fetch
succeeds, and nothing else; the store is what these calls have made of it: if
`BulkInsert` adds its batch to what `GetAll` returns and a fetched item carries
the identifier asked for, the store ends up holding the identifiers it had and
those, once each.
(2) While `run` is in its loop a step other than the cancellation is possible.
(3) For a limit below `maxInt` a run has at most
`4 * limit + 2 * workers + 9` steps, and (4) can be brought to its end from
every state it reaches without a further cancellation.
(5) It ends in a panic only with the error of a failed `BulkInsert`. -/
theorem run_inserts_fetched_gaps {Info σ : Type} (cfg : Setup Info σ) (store : σ)
    (limit : Int) (existing : List Comix)
    (hlimit : cfg.lastComixNum = Except.ok limit)
    (hget : cfg.getAll store = Except.ok existing)
    (hworkers : 1 ≤ cfg.numberOfWorkers) :
    (∀ s, Reachable cfg store s → s.main = Main.returned → s.cancelled = false →
      ∃ ids : List Int,
        ids.Sorted (· < ·) ∧
        (∀ i, i ∈ ids ↔ 1 ≤ i ∧ i ≤ limit ∧ ∀ c ∈ existing, c.ID ≠ i) ∧
        s.calls.flatten.Perm (ids.filterMap cfg.item) ∧
        (∀ x ∈ callErrors cfg.bulkInsert store s.calls, x = none) ∧
        s.store = storeAfter cfg.bulkInsert store s.calls ∧
        ((∀ st b contents, cfg.getAll st = Except.ok contents →
            (cfg.bulkInsert st b).2 = none →
            ∃ after, cfg.getAll (cfg.bulkInsert st b).1 = Except.ok after ∧
              after.Perm (contents ++ b)) →
          (∀ i c, cfg.item i = some c → c.ID = i) →
          ∃ final, cfg.getAll s.store = Except.ok final ∧
            (final.map (fun c => c.ID)).Perm
              (existing.map (fun c => c.ID)
                ++ ids.filter (fun i => (cfg.item i).isSome)))) ∧
    (∀ s, Reachable cfg store s → s.main = Main.ranging →
      ∃ l t, l ≠ Label.cancel ∧ step cfg l s = some t) ∧
    (limit < maxInt → ∀ ls s, exec cfg ls (init cfg store) = some s →
      ls.length ≤ 4 * limit.toNat + 2 * cfg.numberOfWorkers.toNat + 9) ∧
    (limit < maxInt → ∀ s, Reachable cfg store s →
      ∃ ls t, Label.cancel ∉ ls ∧ exec cfg ls s = some t ∧ t.main ≠ Main.ranging) ∧
    (∀ s, Reachable cfg store s → ∀ e, s.main = Main.panicked e →
      some e ∈ callErrors cfg.bulkInsert store s.calls) := by
  refine ⟨fun s hs hret hcancel =>
      returned_run_inserted cfg store limit existing hlimit hget hworkers s hs hret hcancel,
    fun s _ hmain => progress cfg s hmain, fun hlim ls s h => ?_, fun hlim s hs => ?_,
    fun s hs e he => ?_⟩
  · have h1 := exec_length_le cfg store (limit_below_maxInt cfg store limit hlimit hlim) ls
      _ s Reachable.start h
    have h2 := stepsLeft_init cfg store limit hlimit
    omega
  · exact can_finish cfg store (limit_below_maxInt cfg store limit hlimit hlim) _ s
      (le_refl _) hs
  · rcases panic_from_bulkInsert cfg store s hs e he with h | h
    · exfalso
      unfold init at h
      rw [hlimit] at h
      simp only [] at h
      rw [if_neg (by omega)] at h
      cases h
    · exact h

/-- C2 at the scenario of the specification: store 1, 2, 4, upper bound 6, the
fetch of 5 fails, batch size 2, two workers; the store ends as 1, 2, 4, 3, 6. -/
theorem run_inserts_fetched_gaps_witness :
    (1 : Int) ≤ scenario.numberOfWorkers ∧
    Reachable scenario store124 scenarioEnd ∧
    scenarioEnd.main = Main.returned ∧ scenarioEnd.cancelled = false ∧
    scenarioEnd.store.map (fun c => c.ID) = [1, 2, 4, 3, 6] ∧
    ∃ ids : List Int,
      ids.Sorted (· < ·) ∧
      (∀ i, i ∈ ids ↔ 1 ≤ i ∧ i ≤ 6 ∧ ∀ c ∈ store124, c.ID ≠ i) ∧
      scenarioEnd.calls.flatten.Perm (ids.filterMap scenario.item) ∧
      (∀ x ∈ callErrors scenario.bulkInsert store124 scenarioEnd.calls, x = none) ∧
      scenarioEnd.store = storeAfter scenario.bulkInsert store124 scenarioEnd.calls ∧
      ((∀ st b contents, scenario.getAll st = Except.ok contents →
          (scenario.bulkInsert st b).2 = none →
          ∃ after, scenario.getAll (scenario.bulkInsert st b).1 = Except.ok after ∧
            after.Perm (contents ++ b)) →
        (∀ i c, scenario.item i = some c → c.ID = i) →
        ∃ final, scenario.getAll scenarioEnd.store = Except.ok final ∧
          (final.map (fun c => c.ID)).Perm
            (store124.map (fun c => c.ID)
              ++ ids.filter (fun i => (scenario.item i).isSome))) :=
  have hreach : Reachable scenario store124 scenarioEnd :=
    reachable_of_exec scenario store124 scenarioRun _ _ Reachable.start rfl
  ⟨by decide, hreach, rfl, rfl, rfl,
    (run_inserts_fetched_gaps scenario store124 6 store124 rfl rfl (by decide)).1
      scenarioEnd hreach rfl rfl⟩

/-- C3. For every batch size `K ≥ 1` and every run of one worker that returns,
with `M` successful fetches, the worker emits `⌈M / K⌉` batches, every batch but
the last holds `K` items, the last holds `M - K * (⌈M / K⌉ - 1)`, and nothing is
emitted when `M = 0`. -/
theorem fetchComicsBatch_batch_count {Info : Type} (f : Info → Comix) (K : Nat)
    (hK : 1 ≤ K) (events : List (Recv Info)) (hterm : terminates events = true) :
    (fetchComicsBatch f K events).1.length = ((successes events).length + K - 1) / K ∧
    (∀ b ∈ (fetchComicsBatch f K events).1.dropLast, b.length = K) ∧
    (∀ h : (fetchComicsBatch f K events).1 ≠ [],
      ((fetchComicsBatch f K events).1.getLast h).length
        = (successes events).length - K * (((successes events).length + K - 1) / K - 1)) ∧
    ((successes events).length = 0 → (fetchComicsBatch f K events).1 = []) := by
  have hjoin := (workerLoop_join f K events [] hterm).1
  have hsum : (fetchComicsBatch f K events).1.flatten.length = (successes events).length := by
    unfold fetchComicsBatch
    rw [hjoin]
    simp
  have hfull : ∀ b ∈ (fetchComicsBatch f K events).1.dropLast, b.length = K := by
    intro b hb
    exact_mod_cast workerLoop_full f K events [] b hb
  have hcap : ∀ b ∈ (fetchComicsBatch f K events).1, b ≠ [] ∧ b.length ≤ K := by
    intro b hb
    refine ⟨workerLoop_nonempty f K events [] b hb, ?_⟩
    exact_mod_cast workerLoop_capped f K (by exact_mod_cast hK) events []
      (by simp; omega) b hb
  obtain ⟨h1, h2⟩ := ceil_of_chunks _ K _ hK hsum hfull hcap
  refine ⟨h1, hfull, h2, fun h0 => ?_⟩
  rw [h0] at h1
  have : (0 + K - 1) / K = 0 := Nat.div_eq_of_lt (by omega)
  rw [this] at h1
  exact List.length_eq_zero.1 h1

/-- C3 at a concrete input: batch size 2, three successes and one failure, the
identifier stream closed at the end: two batches. -/
theorem fetchComicsBatch_batch_count_witness :
    1 ≤ 2 ∧ terminates (fourReceived Recv.closed) = true ∧
    (fetchComicsBatch (fun c : Comix => c) (2 : Nat) (fourReceived Recv.closed)).1.length
      = ((successes (fourReceived Recv.closed)).length + 2 - 1) / 2 :=
  ⟨by decide, rfl,
    (fetchComicsBatch_batch_count (fun c : Comix => c) 2 (by decide)
      (fourReceived Recv.closed) rfl).1⟩

/-- C4. For every batch size and every run of one worker that returns, by the
closed identifier stream or by cancellation, the batches it emitted, put end to
end, are the items of the successful fetches in the order of receipt; the last
of them comes from the deferred `sendBatch`. -/
theorem fetchComicsBatch_concat {Info : Type} (f : Info → Comix) (batchSize : Int)
    (events : List (Recv Info)) (hterm : terminates events = true) :
    (fetchComicsBatch f batchSize events).1.flatten = (successes events).map f ∧
    (fetchComicsBatch f batchSize events).2 = true := by
  have := workerLoop_join f batchSize events [] hterm
  simpa [fetchComicsBatch] using this

/-- C4 at a concrete input: batch size 2, a failed fetch, the run ended by
cancellation with one item in the batch. -/
theorem fetchComicsBatch_concat_witness :
    terminates (fourReceived Recv.done) = true ∧
    (fetchComicsBatch (fun c : Comix => c) 2 (fourReceived Recv.done)).1.flatten
      = (successes (fourReceived Recv.done)).map (fun c : Comix => c) :=
  ⟨rfl, (fetchComicsBatch_concat (fun c : Comix => c) 2 (fourReceived Recv.done) rfl).1⟩

/-- C5, the code at the failing input and at every input like it. When
`repo.GetAll()` fails (the upper bound was fetched, the number of workers is
not negative), `run` never panics: no identifier is handed out, `BulkInsert`
is never called, the error `writeMissingIDs` returns reaches nobody, and from
every state it reaches the run goes on to the normal return of `run`. -/
theorem run_ignores_getAll_error {Info σ : Type} (cfg : Setup Info σ) (store : σ)
    (limit : Int) (e : GoError)
    (hlimit : cfg.lastComixNum = Except.ok limit)
    (hworkers : 0 ≤ cfg.numberOfWorkers)
    (hget : cfg.getAll store = Except.error e) :
    (∀ s, Reachable cfg store s →
      s.handed = [] ∧ s.calls = [] ∧ (∀ err, s.main ≠ Main.panicked err) ∧
        (s.producer = Producer.start ∨ s.producer = Producer.returned (some e))) ∧
    (∀ s, Reachable cfg store s →
      ∃ ls t, exec cfg ls s = some t ∧ t.main = Main.returned) := by
  have safe : ∀ s, Reachable cfg store s →
      s.handed = [] ∧ s.calls = [] ∧ (∀ err, s.main ≠ Main.panicked err) ∧
        (s.producer = Producer.start ∨ s.producer = Producer.returned (some e)) := by
    intro s hs
    obtain ⟨h1, h2⟩ := nothing_handed_of_getAll_error cfg store e hget s hs
    obtain ⟨h3, _, h5⟩ := idle_of_handed_nil cfg store s hs h1
    refine ⟨h1, h3, fun err herr => ?_, h2⟩
    have hinit : (init cfg store).main = Main.ranging := by
      unfold init
      rw [hlimit]
      simp only []
      rw [if_neg (by omega)]
    rw [hinit] at h5
    rcases h5 with h | h <;> (rw [herr] at h; cases h)
  refine ⟨safe, fun s hs => ?_⟩
  have hlim : ∀ s, Reachable cfg store s →
      ∀ ex i, s.producer = Producer.loop ex i ∨ s.producer = Producer.sending ex i →
        s.limit < maxInt := by
    intro u hu ex i h
    exfalso
    rcases (safe u hu).2.2.2 with h1 | h1 <;> rcases h with h | h <;>
      (rw [h1] at h; cases h)
  obtain ⟨ls, t, _, h2, h3⟩ := can_finish cfg store hlim _ s (le_refl _) hs
  refine ⟨ls, t, h2, ?_⟩
  have ht := (safe t (reachable_of_exec cfg store ls s t hs h2)).2.2.1
  cases hm : t.main with
  | ranging => exact absurd hm h3
  | returned => rfl
  | panicked err => exact absurd hm (ht err)

/-- C5 at a concrete input: one worker, upper bound 3, a store that cannot be
enumerated. `GetAll` fails, the worker finds the stream closed, `batches` is
closed, the loop ends: `run` returns normally. -/
theorem run_ignores_getAll_error_witness :
    (0 : Int) ≤ unreadable.numberOfWorkers ∧
    unreadable.getAll [] = Except.error "unreadable store" ∧
    Reachable unreadable [] unreadableEnd ∧ unreadableEnd.main = Main.returned ∧
    (unreadableEnd.handed = [] ∧ unreadableEnd.calls = [] ∧
      (∀ err, unreadableEnd.main ≠ Main.panicked err) ∧
      (unreadableEnd.producer = Producer.start ∨
        unreadableEnd.producer = Producer.returned (some "unreadable store"))) :=
  have hreach : Reachable unreadable [] unreadableEnd :=
    reachable_of_exec unreadable []
      [Label.producer, Label.closedRecv 0, Label.closeBatches, Label.rangeEnd]
      _ _ Reachable.start rfl
  ⟨by decide, rfl, hreach, rfl,
    (run_ignores_getAll_error unreadable [] 3 "unreadable store" rfl (by decide) rfl).1
      unreadableEnd hreach⟩

/-- C6. The loop of `run` calls `BulkInsert` with the batches in the order of
arrival. It panics with `e` exactly when some call fails, `e` being the error of
the first failing call; that call is the last one made, and the store is left
as the calls up to it have made it. Without a failure every batch is inserted.
In the pipeline the loop does just this with the batches the workers deliver:
the calls made, the store and the panic of every reachable state are those of
the loop run on the batches delivered so far. -/
theorem sinkLoop_stops_at_first_failure {Info σ : Type} (cfg : Setup Info σ) (store : σ)
    (arrivals : List (List Comix)) :
    (sinkLoop cfg.bulkInsert store arrivals).calls <+: arrivals ∧
    ((sinkLoop cfg.bulkInsert store arrivals).panicked = none ↔
      ∀ x ∈ callErrors cfg.bulkInsert store arrivals, x = none) ∧
    ((sinkLoop cfg.bulkInsert store arrivals).panicked = none →
      (sinkLoop cfg.bulkInsert store arrivals).calls = arrivals ∧
      (sinkLoop cfg.bulkInsert store arrivals).store
        = storeAfter cfg.bulkInsert store arrivals) ∧
    (∀ e, (sinkLoop cfg.bulkInsert store arrivals).panicked = some e ↔
      ∃ pre b post, arrivals = pre ++ b :: post ∧
        (∀ x ∈ callErrors cfg.bulkInsert store pre, x = none) ∧
        (cfg.bulkInsert (storeAfter cfg.bulkInsert store pre) b).2 = some e ∧
        (sinkLoop cfg.bulkInsert store arrivals).calls = pre ++ [b] ∧
        (sinkLoop cfg.bulkInsert store arrivals).store
          = (cfg.bulkInsert (storeAfter cfg.bulkInsert store pre) b).1) ∧
    ((init cfg store).main = Main.ranging → ∀ s, Reachable cfg store s →
      (sinkLoop cfg.bulkInsert store s.calls).calls = s.calls ∧
      (sinkLoop cfg.bulkInsert store s.calls).store = s.store ∧
      ∀ e, (sinkLoop cfg.bulkInsert store s.calls).panicked = some e ↔
        s.main = Main.panicked e) := by
  have hsome : ∀ e, (sinkLoop cfg.bulkInsert store arrivals).panicked = some e ↔
      ∃ pre b post, arrivals = pre ++ b :: post ∧
        (∀ x ∈ callErrors cfg.bulkInsert store pre, x = none) ∧
        (cfg.bulkInsert (storeAfter cfg.bulkInsert store pre) b).2 = some e ∧
        (sinkLoop cfg.bulkInsert store arrivals).calls = pre ++ [b] ∧
        (sinkLoop cfg.bulkInsert store arrivals).store
          = (cfg.bulkInsert (storeAfter cfg.bulkInsert store pre) b).1 := by
    intro e
    constructor
    · exact sinkLoop_panicked cfg.bulkInsert arrivals e store
    · rintro ⟨pre, b, post, h1, h2, h3, _, _⟩
      rw [h1]
      exact sinkLoop_of_first_failure cfg.bulkInsert e pre b post store h2 h3
  refine ⟨?_, ⟨fun h => (sinkLoop_ok cfg.bulkInsert arrivals store h).2.2, fun h => ?_⟩,
    fun h => ⟨(sinkLoop_ok cfg.bulkInsert arrivals store h).1,
      (sinkLoop_ok cfg.bulkInsert arrivals store h).2.1⟩, hsome,
    fun hinit s hs => deliveries_follow_sinkLoop cfg store hinit s hs⟩
  · cases hp : (sinkLoop cfg.bulkInsert store arrivals).panicked with
    | none => rw [(sinkLoop_ok cfg.bulkInsert arrivals store hp).1]
    | some e =>
      obtain ⟨pre, b, post, h1, _, _, h4, _⟩ := (hsome e).1 hp
      rw [h4]
      conv_rhs => rw [h1]
      exact ⟨post, by simp⟩
  · cases hp : (sinkLoop cfg.bulkInsert store arrivals).panicked with
    | none => rfl
    | some e =>
      exfalso
      obtain ⟨pre, b, post, h1, _, h3, _, _⟩ := (hsome e).1 hp
      have := h (some e) (by
        rw [h1, callErrors_split]
        simp [callErrors, h3])
      cases this

/-- C7, amended. In every run at most one identifier is received by a worker
after the cancellation: the steps of a run hold at most one receipt after the
cancellation, which is what the state counts in `lateTakes`. Once cancelled,
`writeMissingIDs` returns at its next loop check instead of offering an
identifier, and after a late receipt no further one is possible. -/
theorem at_most_one_take_after_cancel {Info σ : Type} (cfg : Setup Info σ) (store : σ)
    (ls : List Label) (s : State σ) (hrun : exec cfg ls (init cfg store) = some s) :
    lateHandoffs ls ≤ 1 ∧ s.lateTakes = lateHandoffs ls ∧
    (s.cancelled = true → ∀ exist i t, s.producer = Producer.loop exist i →
      step cfg Label.producer s = some t → ∃ err, t.producer = Producer.returned err) ∧
    (s.lateTakes = 1 → ∀ w, step cfg (Label.handoff w) s = none) := by
  have hs : Reachable cfg store s :=
    reachable_of_exec cfg store ls _ s Reachable.start hrun
  obtain ⟨h1, _, h3⟩ := late_takes cfg store s hs
  have hinit : (init cfg store).cancelled = false ∧ (init cfg store).lateTakes = 0 := by
    unfold init; split <;> exact ⟨rfl, rfl⟩
  have hcount := lateTakes_eq cfg ls _ s hinit.1 hrun
  rw [hinit.2, Nat.zero_add] at hcount
  refine ⟨hcount ▸ h1, hcount,
    fun hc ex i t hp h => producer_returns_when_cancelled cfg s t ex i hc hp h,
    fun hl w => ?_⟩
  cases h : step cfg (Label.handoff w) s with
  | none => rfl
  | some t =>
    exfalso
    obtain ⟨ex, i, hp⟩ := handoff_enabled cfg w s t h
    have := h3 ex i hp
    omega

/-- C7 at a concrete input: the run in which the worker receives 1 from a
cancelled pipeline. -/
theorem at_most_one_take_after_cancel_witness :
    exec oneWorker [Label.producer, Label.producer, Label.cancel, Label.handoff 0]
      (init oneWorker []) = some tookLate ∧
    (lateHandoffs [Label.producer, Label.producer, Label.cancel, Label.handoff 0] ≤ 1 ∧
      tookLate.lateTakes
        = lateHandoffs [Label.producer, Label.producer, Label.cancel, Label.handoff 0] ∧
      (tookLate.cancelled = true → ∀ exist i t, tookLate.producer = Producer.loop exist i →
        step oneWorker Label.producer tookLate = some t →
        ∃ err, t.producer = Producer.returned err) ∧
      (tookLate.lateTakes = 1 → ∀ w, step oneWorker (Label.handoff w) tookLate = none)) :=
  ⟨rfl, at_most_one_take_after_cancel oneWorker []
    [Label.producer, Label.producer, Label.cancel, Label.handoff 0] tookLate rfl⟩

/-- C7 as stated fails: with `writeMissingIDs` blocked in `missing <- 1` when
the cancellation arrives, the `select` of the worker can still take the
identifier, and the worker then calls `client.GetByID` with it. -/
theorem worker_takes_after_cancel :
    ∃ s t, Reachable oneWorker [] s ∧ s.cancelled = true ∧
      step oneWorker (Label.handoff 0) s = some t ∧
      t.workers = [Worker.fetching [] 1] :=
  ⟨offering true (Worker.selecting []), tookLate,
    reachable_of_exec oneWorker [] [Label.producer, Label.producer, Label.cancel]
      _ _ Reachable.start rfl,
    rfl, rfl, rfl⟩

/-- C8, the code at the failing input. One worker, upper bound 1, an empty
store: `writeMissingIDs` reaches `missing <- 1`, the cancellation arrives, the
worker takes `<-ctx.Done()` and returns. Now the context is cancelled, every
worker has returned and `writeMissingIDs` is in its send, where it stays
whatever happens next: it neither returns `ctx.Err()` nor closes the stream. -/
theorem producer_blocked_after_cancel :
    ∃ s, Reachable oneWorker [] s ∧ s.cancelled = true ∧
      (∀ w ∈ s.workers, w = Worker.exited) ∧
      s.producer = Producer.sending [] 1 ∧
      ∀ ls t, exec oneWorker ls s = some t → t.producer = Producer.sending [] 1 :=
  ⟨offering true Worker.exited,
    reachable_of_exec oneWorker []
      [Label.producer, Label.producer, Label.cancel, Label.doneRecv 0]
      _ _ Reachable.start rfl,
    rfl, by decide, rfl,
    fun ls t h => blocked_forever oneWorker [] 1 ls _ t (by decide) rfl h⟩

/-- C9. Let the Gap Detector, run to its return on a store holding `existing`
with the bound `limit`, emit `ids`. On a store that holds an item for every
identifier of `existing` and for every one of `ids`, the Gap Detector with the
same bound emits nothing, closes the stream and returns `nil`; and in a run of
the whole pipeline on such a store no identifier reaches a worker, so nothing is
fetched, and `BulkInsert` is never called. -/
theorem second_run_fetches_nothing (existing : List Comix) (limit : Int) (fuel : Nat)
    (ids : List Int)
    (hfirst : writeMissingIDs (Except.ok existing) limit (fun _ => false) fuel
      = some (ids.map ChanOp.send ++ [ChanOp.close], none))
    (after : List Comix)
    (hkeep : ∀ c ∈ existing, ∃ d ∈ after, d.ID = c.ID)
    (hadd : ∀ i ∈ ids, ∃ d ∈ after, d.ID = i) :
    (∀ fuel2, limit.toNat < fuel2 →
      writeMissingIDs (Except.ok after) limit (fun _ => false) fuel2
        = some ([ChanOp.close], none)) ∧
    (∀ {Info σ : Type} (cfg : Setup Info σ) (store : σ),
      cfg.lastComixNum = Except.ok limit → cfg.getAll store = Except.ok after →
      ∀ s, Reachable cfg store s → s.handed = [] ∧ s.calls = []) := by
  have hlim : limit < maxInt := by
    by_contra hge
    unfold writeMissingIDs at hfirst
    simp only [] at hfirst
    rw [writeLoop_never_returns (existKeys existing) limit (fun _ => false) (fun _ => rfl)
      (by omega) fuel 0 1 (by decide)] at hfirst
    simp at hfirst
  have hids : ids = gapsFrom (existKeys existing) 1 limit.toNat := by
    unfold writeMissingIDs at hfirst
    simp only [] at hfirst
    cases hw : writeLoop (existKeys existing) limit (fun _ => false) fuel 0 1 with
    | none => rw [hw] at hfirst; simp at hfirst
    | some r =>
      rw [hw] at hfirst
      have hr := writeLoop_some (existKeys existing) limit (fun _ => false) (fun _ => rfl)
        hlim fuel 0 1 r (by decide) (by decide) hw
      simp only [Option.map_some', Option.some.injEq, Prod.mk.injEq] at hfirst
      have h1 := List.append_cancel_right hfirst.1
      have h2 : r.1 = ids := by
        apply List.map_injective_iff.2 _ h1
        intro a b hab
        cases hab
        rfl
      rw [← h2, hr]
      simp
  have hcov : ∀ i, 1 ≤ i → i ≤ limit → i ∈ existKeys after := by
    intro i h1 h2
    by_cases hex : ∀ c ∈ existing, c.ID ≠ i
    · have : i ∈ ids := hids ▸ (mem_gaps existing limit i).2 ⟨h1, h2, hex⟩
      obtain ⟨d, hd, hdi⟩ := hadd i this
      exact List.mem_map.2 ⟨d, hd, hdi⟩
    · push_neg at hex
      obtain ⟨c, hc, hci⟩ := hex
      obtain ⟨d, hd, hdi⟩ := hkeep c hc
      exact List.mem_map.2 ⟨d, hd, hdi.trans hci⟩
  have hnil : gapsFrom (existKeys after) 1 limit.toNat = [] := by
    rw [List.eq_nil_iff_forall_not_mem]
    intro j hj
    obtain ⟨h1, h2, h3⟩ := (mem_gapsFrom _ _ _ _).1 hj
    exact h3 (hcov j h1 (by omega))
  constructor
  · intro fuel2 hfuel
    unfold writeMissingIDs
    simp only []
    rw [writeLoop_gaps (existKeys after) limit (fun _ => false) (fun _ => rfl) hlim
      limit.toNat fuel2 0 1 (by decide) (by omega) hfuel, hnil]
    rfl
  · intro Info σ cfg store hlimit hget s hs
    have h := nothing_handed_of_covered cfg store limit after hlimit hget hlim hcov s hs
    exact ⟨h, (idle_of_handed_nil cfg store s hs h).1⟩

/-- C9 at a concrete input: the store 1, 2, 4 with the bound 6 makes the Gap
Detector emit 3, 5, 6; on the store 1, 2, 4, 3, 5, 6 it emits nothing. -/
theorem second_run_fetches_nothing_witness :
    writeMissingIDs (Except.ok store124) 6 (fun _ => false) 7
      = some ([3, 5, 6].map ChanOp.send ++ [ChanOp.close], none) ∧
    ((∀ fuel2, (6 : Int).toNat < fuel2 →
      writeMissingIDs (Except.ok store124356) 6 (fun _ => false) fuel2
        = some ([ChanOp.close], none)) ∧
    (∀ {Info σ : Type} (cfg : Setup Info σ) (store : σ),
      cfg.lastComixNum = Except.ok 6 → cfg.getAll store = Except.ok store124356 →
      ∀ s, Reachable cfg store s → s.handed = [] ∧ s.calls = [])) :=
  ⟨rfl, second_run_fetches_nothing store124 6 7 [3, 5, 6] rfl store124356
    (by decide) (by decide)⟩

/-- C10, amended. Every batch a worker emits is non-empty, whatever the
configured batch size; when the batch size is at least 1 the batch holds at
most that many items. -/
theorem fetchComicsBatch_batches_capped {Info : Type} (f : Info → Comix)
    (batchSize : Int) (events : List (Recv Info)) :
    (∀ b ∈ (fetchComicsBatch f batchSize events).1, b ≠ []) ∧
    (1 ≤ batchSize →
      ∀ b ∈ (fetchComicsBatch f batchSize events).1, (b.length : Int) ≤ batchSize) :=
  ⟨workerLoop_nonempty f batchSize events [],
    fun hK => workerLoop_capped f batchSize hK events [] (by simpa using hK)⟩

/-- C10 at a concrete input: batch size 2, three successes and one failure. -/
theorem fetchComicsBatch_batches_capped_witness :
    (1 : Int) ≤ 2 ∧
    ((∀ b ∈ (fetchComicsBatch (fun c : Comix => c) 2 (fourReceived Recv.closed)).1, b ≠ []) ∧
      ∀ b ∈ (fetchComicsBatch (fun c : Comix => c) 2 (fourReceived Recv.closed)).1,
        (b.length : Int) ≤ 2) :=
  ⟨by decide,
    (fetchComicsBatch_batches_capped (fun c : Comix => c) 2 (fourReceived Recv.closed)).1,
    (fetchComicsBatch_batches_capped (fun c : Comix => c) 2 (fourReceived Recv.closed)).2
      (by decide)⟩

/-- C10 as stated fails for the batch size 0: `len(batch) == batchSize` is then
never true of a batch holding an item, and the deferred `sendBatch` emits a batch
of one item, more than the batch size. -/
theorem fetchComicsBatch_zero_batchSize_exceeds :
    ¬ (∀ b ∈ (fetchComicsBatch (fun c : Comix => c) 0
        [Recv.id 1 (Except.ok { ID := 1, payload := "comic" }), Recv.closed]).1,
      b ≠ [] ∧ (b.length : Int) ≤ 0) := by
  intro h
  have := (h [{ ID := 1, payload := "comic" }] (by decide)).2
  simp at this

end Goxkcd
